import Mathlib

/-!
# LinkHints hint-assignment core: shallow embedding and verification

This file embeds the hint-assignment / hint-matching / multi-frame
coordination core of the LinkHints browser extension (the
`TopFrameController` module and its helper functions) as executable Lean
definitions, and proves or refutes the frozen specification claims about
it.

Conventions of the embedding:
* JS numbers that are used as integral quantities (coordinates, weights,
  indexes, timestamps, frame ids) are modelled as `Int`; frame counters
  (`answering` / `collecting`) are modelled as `Nat` since they count
  frames.
* JS strings are Lean `String`s.  Core `String` functions that are
  defined by well-founded recursion on byte positions do not reduce in
  the kernel, so the embedding uses small character-list based
  equivalents (`strToLower`, `jsStartsWith`, ...), which agree with the
  JS semantics on the values involved.
* Mutable class state is modelled by explicit state passing: every
  method of `TopFrameController` becomes a function from the old state
  (plus the current clock value `now`) to the new state together with a
  list of emitted `Effect`s (outbound worker/renderer messages, badge
  updates, scheduled timeouts, tab creations).
* `JS Array.prototype.sort` is a *stable* comparator sort; it is
  modelled as insertion sort over position-tagged elements, which is
  observationally equivalent for a consistent comparator.
* JS `Map` iteration order is insertion order; maps are modelled as
  association lists that append new keys at the end.
-/

/-! ## Small JS-semantics helpers -/

/-- JS `x || y` on numbers used as comparator results: `x` if `x ≠ 0`, else `y`. -/
def jsOr (x y : Int) : Int := if x = 0 then y else x

/-- Character-list based lowercasing (JS `String.prototype.toLowerCase`,
restricted to the ASCII behaviour of `Char.toLower`). -/
def strToLower (s : String) : String := String.mk (s.toList.map Char.toLower)

/-- JS `String.prototype.includes`: substring containment. -/
def strIncludes (s sub : String) : Bool := decide (sub.toList <:+: s.toList)

/-- JS `String.prototype.startsWith`. -/
def jsStartsWith (s p : String) : Bool := p.toList.isPrefixOf s.toList

/-- JS `s.slice(0, -1)`: drop the last character. -/
def strDropLast (s : String) : String := String.mk s.toList.dropLast

/-- JS `s.slice(n)`: drop the first `n` characters. -/
def strDropFirst (s : String) (n : Nat) : String := String.mk (s.toList.drop n)

/-- JS `String.prototype.includes` specialised to a single character,
used for `url.includes("#")` and `chars.includes(key)`. -/
def strContainsChar (s : String) (c : Char) : Bool := s.toList.contains c

/-- Fuel-bounded kernel of `jsSetList` (structural in the fuel so that
the kernel can evaluate it; `l.length` fuel always suffices because every
step strictly shrinks the list). -/
def jsSetListFuel : Nat → List String → List String
  | _, [] => []
  | 0, _ :: _ => []
  | fuel + 1, x :: xs => x :: jsSetListFuel fuel (xs.filter (fun y => y ≠ x))

/-- JS `Set` built from a list of strings: the distinct members in
first-insertion order (`new Set(list)` iterated with `Array.from`). -/
def jsSetList (l : List String) : List String := jsSetListFuel l.length l

theorem jsSetListFuel_congr : ∀ {f₁ : Nat} {l : List String} {f₂ : Nat},
    l.length ≤ f₁ → l.length ≤ f₂ →
    jsSetListFuel f₁ l = jsSetListFuel f₂ l := by
  intro f₁
  induction f₁ with
  | zero =>
    intro l f₂ h₁ _
    have hl : l = [] := List.eq_nil_of_length_eq_zero (Nat.le_zero.mp h₁)
    subst hl
    cases f₂ <;> rfl
  | succ f ih =>
    intro l f₂ h₁ h₂
    cases l with
    | nil => cases f₂ <;> rfl
    | cons x xs =>
      cases f₂ with
      | zero => simp at h₂
      | succ f₂' =>
        simp only [jsSetListFuel]
        congr 1
        have hf : (xs.filter (fun y => y ≠ x)).length ≤ f :=
          le_trans (List.length_filter_le _ _) (by simpa using h₁)
        have hf₂ : (xs.filter (fun y => y ≠ x)).length ≤ f₂' :=
          le_trans (List.length_filter_le _ _) (by simpa using h₂)
        exact ih hf hf₂

theorem jsSetList_nil : jsSetList [] = [] := rfl

theorem jsSetList_cons (x : String) (xs : List String) :
    jsSetList (x :: xs) = x :: jsSetList (xs.filter (fun y => y ≠ x)) := by
  unfold jsSetList
  simp only [List.length_cons, jsSetListFuel]
  congr 1
  exact jsSetListFuel_congr (List.length_filter_le _ _) (le_refl _)

/-- Induction along the recursion structure of `jsSetList`. -/
theorem jsSetList_induction (motive : List String → Prop) (h0 : motive [])
    (h1 : ∀ x xs, motive (xs.filter (fun y => y ≠ x)) → motive (x :: xs)) :
    ∀ l, motive l := by
  intro l
  generalize hlen : l.length = n
  induction n using Nat.strong_induction_on generalizing l with
  | _ n ih =>
    cases l with
    | nil => exact h0
    | cons x xs =>
      refine h1 x xs (ih ((xs.filter (fun y => y ≠ x)).length) ?_ _ rfl)
      rw [← hlen]
      simp only [List.length_cons]
      exact Nat.lt_succ_of_le (List.length_filter_le _ _)

/-! ## Data model (`src/shared/hints.ts`) -/

/-- Hint alignment side (`"left" | "right"`). -/
inductive Align where
  | left
  | right
  deriving DecidableEq, Repr

/-- Element category enum (`ElementType` in `shared/hints.ts`). -/
inductive ElementType where
  | clickableEvent
  | clickable
  | sometimesClickable
  | link
  | selectable
  | textarea
  deriving DecidableEq, Repr

/-- On-screen measurements of a hint (`HintMeasurements`).  The `debug`
string field is omitted (it is a diagnostic label, never read). -/
structure HintMeasurements where
  x : Int
  y : Int
  align : Align
  maxX : Int
  weight : Int
  deriving DecidableEq, Repr

/-- One element discovered in one frame (`ElementReport`). -/
structure ElementReport where
  type : ElementType
  index : Int
  hintMeasurements : HintMeasurements
  url : Option String
  urlWithTarget : Option String
  text : String
  textContent : Bool
  textWeight : Int
  isTextInput : Bool
  hasClickListener : Bool
  deriving DecidableEq, Repr

/-- Owning-frame identity of a merged element report. -/
structure FrameRef where
  id : Int
  index : Int
  deriving DecidableEq, Repr

/-- `ExtendedElementReport`: an `ElementReport` plus owning frame and the
`hidden` flag. -/
structure ExtendedElementReport extends ElementReport where
  frame : FrameRef
  hidden : Bool
  deriving DecidableEq, Repr

/-- `ElementWithHint`: an `ExtendedElementReport` plus assignment weight
and assigned hint string. -/
structure ElementWithHint extends ExtendedElementReport where
  weight : Int
  hint : String
  deriving DecidableEq, Repr

/-- `elementKey` from `shared/hints.ts`: `[x, y, align, hint].join("\n")`. -/
def alignString : Align → String
  | .left => "left"
  | .right => "right"

/-- Key used to re-identify a hint across re-scans (position + alignment +
hint string). -/
def elementKey (element : ElementWithHint) : String :=
  toString element.hintMeasurements.x ++ "\n" ++
    toString element.hintMeasurements.y ++ "\n" ++
    alignString element.hintMeasurements.align ++ "\n" ++ element.hint

/-- The user-facing hinting modes. -/
inductive HintsMode where
  | Click
  | BackgroundTab
  | ForegroundTab
  | ManyClick
  | ManyTab
  | Select
  deriving DecidableEq, Repr

/-- A render record sent to the renderer (`ElementRender`). -/
structure ElementRender where
  hintMeasurements : HintMeasurements
  hint : String
  highlighted : Bool
  invertedZIndex : Int
  deriving DecidableEq, Repr

/-- A per-element UI update emitted by `updateHints` (`HintUpdate`). -/
inductive HintUpdate where
  | Hide (index : Int) (hidden : Bool)
  | UpdateContent (index : Int) (order : Int) (matchedChars : String)
      (restChars : String) (highlighted : Bool) (hidden : Bool)
  | UpdatePosition (index : Int) (order : Int) (hint : String)
      (hintMeasurements : HintMeasurements) (highlighted : Bool) (hidden : Bool)
  deriving DecidableEq, Repr

/-- The `hidden` flag carried by a `HintUpdate` (`update.hidden`). -/
def HintUpdate.hiddenFlag : HintUpdate → Bool
  | .Hide _ hidden => hidden
  | .UpdateContent _ _ _ _ _ hidden => hidden
  | .UpdatePosition _ _ _ _ _ hidden => hidden

/-! ## Element Combiner (`getCombiningUrl`, `Combined`, `combineByHref`) -/

/-- Guard for combining in the Click modes: the element must have a URL
without a fragment identifier and no click listener of its own. -/
def shouldCombineHintsForClick (element : ElementWithHint) : Bool :=
  match element.url with
  | none => false
  | some url => !(strContainsChar url '#') && !element.hasClickListener

/-- The key by which two elements may share one hint, depending on mode. -/
def getCombiningUrl (mode : HintsMode) (element : ElementWithHint) :
    Option String :=
  match mode with
  | .Click => if shouldCombineHintsForClick element then element.urlWithTarget else none
  | .BackgroundTab => element.url
  | .ForegroundTab => element.url
  | .ManyClick => if shouldCombineHintsForClick element then element.urlWithTarget else none
  | .ManyTab => element.url
  | .Select => none

/-- A group of elements sharing one hint (`class Combined`). -/
structure Combined where
  children : List ElementWithHint
  deriving DecidableEq, Repr

/-- `Math.max(...children.map(child => child.weight))` — the weight of a
`Combined` group (only ever used on non-empty groups). -/
def Combined.weight (c : Combined) : Int :=
  match c.children.map (fun child => child.weight) with
  | [] => 0
  | w :: ws => ws.foldl max w

/-- Insert an element under its combining key in an insertion-ordered
association list (JS `Map` semantics of `combineByHref`). -/
def insertByUrl (m : List (String × List ElementWithHint)) (url : String)
    (element : ElementWithHint) : List (String × List ElementWithHint) :=
  match m with
  | [] => [(url, [element])]
  | (u, es) :: rest =>
      if u = url then (u, es ++ [element]) :: rest
      else (u, es) :: insertByUrl rest url element

/-- One step of `combineByHref`'s loop over `elements`. -/
def combineStep (mode : HintsMode)
    (acc : List (String × List ElementWithHint) × List ElementWithHint)
    (element : ElementWithHint) :
    List (String × List ElementWithHint) × List ElementWithHint :=
  match getCombiningUrl mode element with
  | some url => (insertByUrl acc.1 url element, acc.2)
  | none => (acc.1, acc.2 ++ [element])

/-- `combineByHref`: group elements by combining URL (insertion order of
keys), then append the ungrouped remainder. -/
def combineByHref (elements : List ElementWithHint) (mode : HintsMode) :
    List (Combined ⊕ ElementWithHint) :=
  let (map, rest) := elements.foldl (combineStep mode) ([], [])
  (map.map fun p => Sum.inl ⟨p.2⟩) ++ rest.map Sum.inr

/-! ## Characterization of the Element Combiner -/

theorem mem_jsSetList {x : String} : ∀ {l : List String}, x ∈ jsSetList l ↔ x ∈ l := by
  intro l
  induction l using jsSetList_induction with
  | h0 => simp [jsSetList_nil]
  | h1 a xs ih =>
    simp only [jsSetList_cons, List.mem_cons, ih, List.mem_filter,
      decide_eq_true_eq]
    by_cases hx : x = a
    · simp [hx]
    · simp [hx]

theorem jsSetList_nodup : ∀ (l : List String), (jsSetList l).Nodup := by
  intro l
  induction l using jsSetList_induction with
  | h0 => simp [jsSetList_nil]
  | h1 a xs ih =>
    simp only [jsSetList_cons, List.nodup_cons]
    refine ⟨fun hmem => ?_, ih⟩
    rw [mem_jsSetList] at hmem
    simp at hmem

theorem jsSetList_append_singleton (x : String) :
    ∀ (l : List String),
      jsSetList (l ++ [x]) =
        if x ∈ l then jsSetList l else jsSetList l ++ [x] := by
  intro l
  induction l using jsSetList_induction with
  | h0 => simp [jsSetList_nil, jsSetList_cons]
  | h1 a xs ih =>
    by_cases hx : x = a
    · subst hx
      simp only [List.cons_append, jsSetList_cons, List.filter_append]
      simp [List.filter]
    · simp only [List.cons_append, jsSetList_cons, List.filter_append]
      have hfx : List.filter (fun y => decide (y ≠ a)) [x] = [x] := by
        simp [List.filter, hx]
      rw [hfx, ih]
      by_cases hmem : x ∈ xs
      · have : x ∈ List.filter (fun y => decide (y ≠ a)) xs := by
          simp [List.mem_filter, hmem, hx]
        simp [this, hmem, hx]
      · have : x ∉ List.filter (fun y => decide (y ≠ a)) xs := by
          simp [List.mem_filter, hmem]
        simp [this, hmem, hx]

/-- The canonical grouping map after processing `p`: one entry per distinct
combining key, in first-appearance order, holding all elements of `p` with
that key in original order. -/
def canonMap (mode : HintsMode) (p : List ElementWithHint) :
    List (String × List ElementWithHint) :=
  (jsSetList (p.filterMap (getCombiningUrl mode))).map
    (fun u => (u, p.filter (fun e => decide (getCombiningUrl mode e = some u))))

/-- The canonical ungrouped remainder after processing `p`. -/
def canonRest (mode : HintsMode) (p : List ElementWithHint) :
    List ElementWithHint :=
  p.filter (fun e => decide (getCombiningUrl mode e = none))

theorem insertByUrl_of_not_mem (u0 : String) (e : ElementWithHint)
    (f : String → List ElementWithHint) :
    ∀ (keys : List String), u0 ∉ keys →
      insertByUrl (keys.map (fun u => (u, f u))) u0 e =
        keys.map (fun u => (u, f u)) ++ [(u0, [e])] := by
  intro keys
  induction keys with
  | nil => intro _; simp [insertByUrl]
  | cons k rest ih =>
    intro hn
    simp only [List.mem_cons, not_or] at hn
    simp only [List.map_cons, insertByUrl, List.cons_append]
    rw [if_neg (fun h => hn.1 h.symm), ih hn.2]

theorem insertByUrl_of_mem (u0 : String) (e : ElementWithHint)
    (f : String → List ElementWithHint) :
    ∀ (keys : List String), keys.Nodup → u0 ∈ keys →
      insertByUrl (keys.map (fun u => (u, f u))) u0 e =
        keys.map (fun u => (u, if u = u0 then f u ++ [e] else f u)) := by
  intro keys
  induction keys with
  | nil => intro _ h; simp at h
  | cons k rest ih =>
    intro hnd hmem
    simp only [List.nodup_cons] at hnd
    simp only [List.map_cons, insertByUrl]
    by_cases hk : k = u0
    · subst hk
      rw [if_pos rfl]
      have : rest.map (fun u => (u, if u = k then f u ++ [e] else f u)) =
          rest.map (fun u => (u, f u)) := by
        apply List.map_congr_left
        intro a ha
        have : a ≠ k := fun h => hnd.1 (h ▸ ha)
        simp [this]
      simp [this]
    · rw [if_neg hk]
      have hmem' : u0 ∈ rest := by
        rcases List.mem_cons.mp hmem with h | h
        · exact absurd h.symm hk
        · exact h
      rw [ih hnd.2 hmem']
      rw [if_neg hk]


theorem canonRest_append_none {mode : HintsMode} {e : ElementWithHint}
    (p : List ElementWithHint) (hk : getCombiningUrl mode e = none) :
    canonRest mode (p ++ [e]) = canonRest mode p ++ [e] := by
  unfold canonRest
  rw [List.filter_append]
  congr 1
  simp [List.filter, hk]

theorem canonRest_append_some {mode : HintsMode} {e : ElementWithHint} {u0 : String}
    (p : List ElementWithHint) (hk : getCombiningUrl mode e = some u0) :
    canonRest mode (p ++ [e]) = canonRest mode p := by
  unfold canonRest
  rw [List.filter_append]
  have : List.filter (fun x => decide (getCombiningUrl mode x = none)) [e] = [] := by
    simp [List.filter, hk]
  rw [this, List.append_nil]

theorem canonMap_append_none {mode : HintsMode} {e : ElementWithHint}
    (p : List ElementWithHint) (hk : getCombiningUrl mode e = none) :
    canonMap mode (p ++ [e]) = canonMap mode p := by
  unfold canonMap
  rw [List.filterMap_append]
  have hfm : List.filterMap (getCombiningUrl mode) [e] = [] := by
    simp [List.filterMap_cons, hk]
  rw [hfm, List.append_nil]
  apply List.map_congr_left
  intro u _
  rw [List.filter_append]
  have : List.filter (fun x => decide (getCombiningUrl mode x = some u)) [e] = [] := by
    simp [List.filter, hk]
  rw [this, List.append_nil]

theorem canonMap_append_some {mode : HintsMode} {e : ElementWithHint} {u0 : String}
    (p : List ElementWithHint) (hk : getCombiningUrl mode e = some u0) :
    canonMap mode (p ++ [e]) = insertByUrl (canonMap mode p) u0 e := by
  unfold canonMap
  rw [List.filterMap_append]
  have hfm : List.filterMap (getCombiningUrl mode) [e] = [u0] := by
    simp [List.filterMap_cons, hk]
  rw [hfm, jsSetList_append_singleton]
  by_cases hmem : u0 ∈ p.filterMap (getCombiningUrl mode)
  · rw [if_pos hmem,
      insertByUrl_of_mem _ _ _ _ (jsSetList_nodup _) (mem_jsSetList.mpr hmem)]
    apply List.map_congr_left
    intro u _
    rw [List.filter_append]
    by_cases hu : u = u0
    · rw [if_pos hu]
      have : List.filter (fun x => decide (getCombiningUrl mode x = some u)) [e] = [e] := by
        simp [List.filter, hk, hu]
      rw [this]
    · have : List.filter (fun x => decide (getCombiningUrl mode x = some u)) [e] = [] := by
        have hne : ¬(getCombiningUrl mode e = some u) := by
          rw [hk]
          intro h
          exact hu (Option.some.inj h).symm
        simp [List.filter, hne]
      rw [this, List.append_nil, if_neg hu]
  · rw [if_neg hmem,
      insertByUrl_of_not_mem _ _ _ _ (fun h => hmem (mem_jsSetList.mp h)),
      List.map_append]
    congr 1
    · apply List.map_congr_left
      intro u hu
      have hune : u ≠ u0 := by
        intro h
        exact hmem (h ▸ mem_jsSetList.mp hu)
      rw [List.filter_append]
      have : List.filter (fun x => decide (getCombiningUrl mode x = some u)) [e] = [] := by
        have hne : ¬(getCombiningUrl mode e = some u) := by
          rw [hk]
          intro h
          exact hune (Option.some.inj h).symm
        simp [List.filter, hne]
      rw [this, List.append_nil]
    · simp only [List.map_cons, List.map_nil]
      have hpe : List.filter (fun x => decide (getCombiningUrl mode x = some u0)) p = [] := by
        rw [List.filter_eq_nil_iff]
        intro a ha
        simp only [decide_eq_true_eq]
        intro h
        exact hmem (List.mem_filterMap.mpr ⟨a, ha, h⟩)
      rw [List.filter_append, hpe]
      have : List.filter (fun x => decide (getCombiningUrl mode x = some u0)) [e] = [e] := by
        simp [List.filter, hk]
      rw [this, List.nil_append]

theorem combineStep_canon (mode : HintsMode) (p : List ElementWithHint)
    (e : ElementWithHint) :
    combineStep mode (canonMap mode p, canonRest mode p) e =
      (canonMap mode (p ++ [e]), canonRest mode (p ++ [e])) := by
  unfold combineStep
  cases hk : getCombiningUrl mode e with
  | none =>
    simp only [Prod.mk.injEq]
    exact ⟨(canonMap_append_none p hk).symm, (canonRest_append_none p hk).symm⟩
  | some u0 =>
    simp only [Prod.mk.injEq]
    exact ⟨(canonMap_append_some p hk).symm, (canonRest_append_some p hk).symm⟩

theorem foldl_combineStep_canon (mode : HintsMode) :
    ∀ (l p : List ElementWithHint),
      l.foldl (combineStep mode) (canonMap mode p, canonRest mode p) =
        (canonMap mode (p ++ l), canonRest mode (p ++ l)) := by
  intro l
  induction l with
  | nil => intro p; simp
  | cons e l' ih =>
    intro p
    rw [List.foldl_cons, combineStep_canon, ih (p ++ [e])]
    simp

/-- `combineByHref` in closed form: one `Combined` group per distinct
combining key (in first-appearance order), holding exactly the elements
with that key in original order, followed by the key-less elements. -/
theorem combineByHref_eq (elements : List ElementWithHint) (mode : HintsMode) :
    combineByHref elements mode =
      ((jsSetList (elements.filterMap (getCombiningUrl mode))).map
        (fun u => Sum.inl
          ⟨elements.filter (fun e => decide (getCombiningUrl mode e = some u))⟩)) ++
      (elements.filter (fun e => decide (getCombiningUrl mode e = none))).map
        Sum.inr := by
  unfold combineByHref
  have h0 : (([], []) : List (String × List ElementWithHint) × List ElementWithHint) =
      (canonMap mode [], canonRest mode []) := by
    simp [canonMap, canonRest, jsSetList_nil]
  rw [h0, foldl_combineStep_canon mode elements []]
  simp only [List.nil_append, canonMap, canonRest, List.map_map]
  rfl

theorem inl_mem_combineByHref {elements : List ElementWithHint}
    {mode : HintsMode} {c : Combined} :
    Sum.inl c ∈ combineByHref elements mode ↔
      ∃ u, u ∈ elements.filterMap (getCombiningUrl mode) ∧
        c = ⟨elements.filter (fun e => decide (getCombiningUrl mode e = some u))⟩ := by
  rw [combineByHref_eq]
  simp only [List.mem_append, List.mem_map]
  constructor
  · rintro (⟨u, hu, he⟩ | ⟨e, _, he⟩)
    · exact ⟨u, mem_jsSetList.mp hu, (Sum.inl.inj he).symm⟩
    · simp at he
  · rintro ⟨u, hu, rfl⟩
    exact .inl ⟨u, mem_jsSetList.mpr hu, rfl⟩

/-- Two elements end up in one combined group (sharing a single hint). -/
def inSameGroup (elements : List ElementWithHint) (mode : HintsMode)
    (a b : ElementWithHint) : Prop :=
  ∃ c : Combined, Sum.inl c ∈ combineByHref elements mode ∧
    a ∈ c.children ∧ b ∈ c.children

theorem inSameGroup_iff {elements : List ElementWithHint} {mode : HintsMode}
    {a b : ElementWithHint} :
    inSameGroup elements mode a b ↔
      a ∈ elements ∧ b ∈ elements ∧
        ∃ u, getCombiningUrl mode a = some u ∧ getCombiningUrl mode b = some u := by
  unfold inSameGroup
  constructor
  · rintro ⟨c, hc, ha, hb⟩
    rcases inl_mem_combineByHref.mp hc with ⟨u, _, rfl⟩
    simp only [List.mem_filter, decide_eq_true_eq] at ha hb
    exact ⟨ha.1, hb.1, u, ha.2, hb.2⟩
  · rintro ⟨ha, hb, u, hka, hkb⟩
    refine ⟨⟨elements.filter (fun e => decide (getCombiningUrl mode e = some u))⟩,
      inl_mem_combineByHref.mpr ⟨u, List.mem_filterMap.mpr ⟨a, ha, hka⟩, rfl⟩, ?_, ?_⟩
    · exact List.mem_filter.mpr ⟨ha, by simp [hka]⟩
    · exact List.mem_filter.mpr ⟨hb, by simp [hkb]⟩

theorem shouldCombine_true_iff {a : ElementWithHint} :
    shouldCombineHintsForClick a = true ↔
      ∃ ua, a.url = some ua ∧ strContainsChar ua '#' = false ∧
        a.hasClickListener = false := by
  unfold shouldCombineHintsForClick
  cases h : a.url with
  | none => simp
  | some ua => simp [h]

theorem click_key_iff {a : ElementWithHint} {u : String} :
    (if shouldCombineHintsForClick a then a.urlWithTarget else none) = some u ↔
      a.urlWithTarget = some u ∧ a.hasClickListener = false ∧
        ∃ ua, a.url = some ua ∧ strContainsChar ua '#' = false := by
  by_cases hca : shouldCombineHintsForClick a = true
  · rw [if_pos hca]
    rcases shouldCombine_true_iff.mp hca with ⟨ua, hau, haf, hal⟩
    constructor
    · intro h
      exact ⟨h, hal, ua, hau, haf⟩
    · intro h
      exact h.1
  · rw [if_neg hca]
    constructor
    · intro h
      cases h
    · rintro ⟨_, hal, ua, hau, haf⟩
      exact absurd (shouldCombine_true_iff.mpr ⟨ua, hau, haf, hal⟩) hca

/-- The grouping condition the specification states, per mode: Click modes
combine on equal URL-with-target with no click listeners and fragment-free
URLs; tab modes combine on equal plain URL; Select never combines. -/
def specGroupCond (mode : HintsMode) (a b : ElementWithHint) : Prop :=
  match mode with
  | .Click | .ManyClick =>
      (∃ w, a.urlWithTarget = some w ∧ b.urlWithTarget = some w) ∧
      a.hasClickListener = false ∧ b.hasClickListener = false ∧
      (∃ ua, a.url = some ua ∧ strContainsChar ua '#' = false) ∧
      (∃ ub, b.url = some ub ∧ strContainsChar ub '#' = false)
  | .BackgroundTab | .ForegroundTab | .ManyTab =>
      ∃ u, a.url = some u ∧ b.url = some u
  | .Select => False

/-- C4: the Element Combiner never groups two elements when either has a
click listener or a fragment URL in the Click/ManyClick modes; in those
modes grouping happens exactly on equal URL-with-target with no click
listeners and fragment-free URLs; tab modes group by plain URL; Select
never groups. -/
theorem combineByHref_grouping (elements : List ElementWithHint)
    (mode : HintsMode) (a b : ElementWithHint) :
    inSameGroup elements mode a b ↔
      a ∈ elements ∧ b ∈ elements ∧ specGroupCond mode a b := by
  rw [inSameGroup_iff]
  refine and_congr_right fun _ => and_congr_right fun _ => ?_
  cases mode with
  | Click =>
    simp only [specGroupCond, getCombiningUrl, click_key_iff]
    constructor
    · rintro ⟨u, ⟨hau, hal, hua⟩, ⟨hbu, hbl, hub⟩⟩
      exact ⟨⟨u, hau, hbu⟩, hal, hbl, hua, hub⟩
    · rintro ⟨⟨w, haw, hbw⟩, hal, hbl, hua, hub⟩
      exact ⟨w, ⟨haw, hal, hua⟩, ⟨hbw, hbl, hub⟩⟩
  | ManyClick =>
    simp only [specGroupCond, getCombiningUrl, click_key_iff]
    constructor
    · rintro ⟨u, ⟨hau, hal, hua⟩, ⟨hbu, hbl, hub⟩⟩
      exact ⟨⟨u, hau, hbu⟩, hal, hbl, hua, hub⟩
    · rintro ⟨⟨w, haw, hbw⟩, hal, hbl, hua, hub⟩
      exact ⟨w, ⟨haw, hal, hua⟩, ⟨hbw, hbl, hub⟩⟩
  | BackgroundTab => simp only [specGroupCond, getCombiningUrl]
  | ForegroundTab => simp only [specGroupCond, getCombiningUrl]
  | ManyTab => simp only [specGroupCond, getCombiningUrl]
  | Select => simp [specGroupCond, getCombiningUrl]

theorem foldl_max_init_le (w : Int) :
    ∀ (ws : List Int), w ≤ ws.foldl max w := by
  intro ws
  induction ws generalizing w with
  | nil => exact le_refl w
  | cons a ws ih => exact le_trans (le_max_left w a) (ih (max w a))

theorem foldl_max_mem_le (w : Int) :
    ∀ (ws : List Int), ∀ a ∈ ws, a ≤ ws.foldl max w := by
  intro ws
  induction ws generalizing w with
  | nil => intro a ha; cases ha
  | cons x ws ih =>
    intro a ha
    rcases List.mem_cons.mp ha with rfl | ha
    · exact le_trans (le_max_right w a) (foldl_max_init_le (max w a) ws)
    · exact ih (max w x) a ha

theorem foldl_max_attained (w : Int) :
    ∀ (ws : List Int), ws.foldl max w = w ∨ ws.foldl max w ∈ ws := by
  intro ws
  induction ws generalizing w with
  | nil => exact .inl rfl
  | cons a ws ih =>
    rcases ih (max w a) with h | h
    · rcases max_choice w a with hm | hm
      · exact .inl (by rw [List.foldl_cons, h, hm])
      · exact .inr (by rw [List.foldl_cons, h, hm]; exact List.mem_cons_self a ws)
    · exact .inr (List.mem_cons_of_mem a h)

theorem Combined.weight_spec (c : Combined) (h : c.children ≠ []) :
    (∀ m ∈ c.children, m.weight ≤ c.weight) ∧
      ∃ m ∈ c.children, c.weight = m.weight := by
  rcases c with ⟨children⟩
  cases children with
  | nil => exact absurd rfl h
  | cons x xs =>
    unfold Combined.weight
    simp only [List.map_cons]
    constructor
    · intro m hm
      rcases List.mem_cons.mp hm with rfl | hm
      · exact foldl_max_init_le _ _
      · exact foldl_max_mem_le _ _ _ (List.mem_map_of_mem _ hm)
    · rcases foldl_max_attained x.weight (xs.map fun e => e.weight) with h₁ | h₁
      · exact ⟨x, List.mem_cons_self _ _, h₁⟩
      · rcases List.mem_map.mp h₁ with ⟨m, hm, hmw⟩
        exact ⟨m, List.mem_cons_of_mem _ hm, hmw.symm⟩

/-- C8: every combined group the Element Combiner produces is non-empty and
its effective weight is the maximum of its members' weights: at least every
member's weight, and attained by some member. -/
theorem combined_group_weight_max (elements : List ElementWithHint)
    (mode : HintsMode) (c : Combined)
    (hc : Sum.inl c ∈ combineByHref elements mode) :
    c.children ≠ [] ∧
      (∀ m ∈ c.children, m.weight ≤ c.weight) ∧
      ∃ m ∈ c.children, c.weight = m.weight := by
  rcases inl_mem_combineByHref.mp hc with ⟨u, hu, rfl⟩
  rcases List.mem_filterMap.mp hu with ⟨e, he, hke⟩
  have hne : e ∈ elements.filter (fun x => decide (getCombiningUrl mode x = some u)) :=
    List.mem_filter.mpr ⟨he, by simp [hke]⟩
  have hnil :
      (⟨elements.filter (fun x => decide (getCombiningUrl mode x = some u))⟩ :
        Combined).children ≠ [] := by
    intro h
    rw [show (⟨elements.filter
        (fun x => decide (getCombiningUrl mode x = some u))⟩ :
          Combined).children =
        elements.filter (fun x => decide (getCombiningUrl mode x = some u)) from rfl] at h
    rw [h] at hne
    cases hne
  exact ⟨hnil, (Combined.weight_spec _ hnil).1, (Combined.weight_spec _ hnil).2⟩

/-- A concrete link element used by witnesses. -/
def sampleElement : ElementWithHint :=
  { type := .link
    index := 0
    hintMeasurements := { x := 0, y := 0, align := .left, maxX := 10, weight := 5 }
    url := some "https://x/"
    urlWithTarget := some "https://x/"
    text := "sample"
    textContent := true
    textWeight := 1
    isTextInput := false
    hasClickListener := false
    frame := { id := 0, index := 0 }
    hidden := false
    weight := 5
    hint := "" }

/-- Witness for C8 at a concrete two-element group. -/
theorem combined_group_weight_max_witness :
    (⟨[sampleElement, { sampleElement with weight := 3 }]⟩ : Combined).children ≠ [] ∧
      (∀ m ∈ (⟨[sampleElement, { sampleElement with weight := 3 }]⟩ : Combined).children,
        m.weight ≤ (⟨[sampleElement, { sampleElement with weight := 3 }]⟩ : Combined).weight) ∧
      ∃ m ∈ (⟨[sampleElement, { sampleElement with weight := 3 }]⟩ : Combined).children,
        (⟨[sampleElement, { sampleElement with weight := 3 }]⟩ : Combined).weight = m.weight :=
  combined_group_weight_max
    [sampleElement, { sampleElement with weight := 3 }] .BackgroundTab _
    (inl_mem_combineByHref.mpr ⟨"https://x/", by decide, by decide⟩)

/-! ## Hint Assignment (`comparePositions`, `assignHints`) -/

/-- `comparePositions`: left to right, top to bottom (`a.x - b.x || a.y - b.y`). -/
def comparePositions (a b : HintMeasurements) : Int :=
  jsOr (a.x - b.x) (a.y - b.y)

/-- The comparator `assignHints` passes to `.sort`: weight descending, then
position, then original stable index. -/
def compareHints (a b : ElementWithHint) : Int :=
  jsOr (b.weight - a.weight)
    (jsOr (comparePositions a.hintMeasurements b.hintMeasurements)
      (a.index - b.index))

/-- The total preorder a JS stable sort with comparator `cmp` realises on
position-tagged elements: strictly smaller comparator result first, ties
kept in original order. -/
def jsSortRel {α : Type} (cmp : α → α → Int) (a b : Nat × α) : Prop :=
  cmp a.2 b.2 < 0 ∨ (cmp a.2 b.2 = 0 ∧ a.1 ≤ b.1)

instance {α : Type} (cmp : α → α → Int) : DecidableRel (jsSortRel cmp) := fun a b => by
  unfold jsSortRel
  infer_instance

/-- JS `Array.prototype.sort(cmp)`: a *stable* comparator sort, modelled
as insertion sort over position-tagged elements (observationally the same
for a consistent comparator). -/
def jsSortBy {α : Type} (cmp : α → α → Int) (l : List α) : List α :=
  (l.enum.insertionSort (jsSortRel cmp)).map (fun p => p.2)

/-- `Math.max(1, ...passedElements.map((element) => element.textWeight))`. -/
def largestTextWeightOf (elements : List ElementWithHint) : Int :=
  (elements.map (fun e => e.textWeight)).foldl max 1

/-- The weight `assignHints` gives each element before sorting: inversely
scaled text weight when filter text is active, on-screen measurement
weight otherwise (the hint is reset alongside). -/
def assignWeight (hasEnteredText : Bool) (largestTextWeight : Int)
    (e : ElementWithHint) : ElementWithHint :=
  { e with
    weight :=
      if hasEnteredText then largestTextWeight - e.textWeight + 1
      else e.hintMeasurements.weight,
    hint := "" }

/-- Modelled from the spec: the external `n-ary-huffman` npm package
(`huffman.createTree` / `tree.assignCodeWords`) is a dependency, not part
of this repository.  Specification §4.1 gives its contract: a
deterministic n-ary Huffman construction assigning prefix-free code words
over a `K ≥ 2` character alphabet, heavier items receiving shorter words,
with zero-weight padding so every internal node has `K` children.  The
tree below models that construction; no claim in this development depends
on the exact code words produced. -/
inductive HTree where
  | leaf (idx : Nat)
  | node (children : List HTree)

/-- Comparison by accumulated weight used while merging Huffman nodes. -/
def hWeightLe (a b : Int × HTree) : Prop := a.1 ≤ b.1

instance : DecidableRel hWeightLe := fun a b =>
  inferInstanceAs (Decidable (a.1 ≤ b.1))

/-- Repeatedly merge the `k` lightest nodes (fuel-bounded; each merge
strictly reduces the node count, so `fuel = length` suffices). -/
def huffmanMerge (k : Nat) : Nat → List (Int × HTree) → HTree
  | _, [] => .node []
  | _, [(_, t)] => t
  | 0, ns => .node (ns.map (fun p => p.2))
  | fuel + 1, ns =>
      let sorted := ns.insertionSort hWeightLe
      let group := sorted.take k
      let rest := sorted.drop k
      huffmanMerge k fuel
        ((group.foldl (fun acc p => acc + p.1) 0,
          HTree.node (group.map (fun p => p.2))) :: rest)

mutual

/-- Collect `(leaf index, code word)` pairs from a Huffman tree. -/
def hTreeCodes (chars : List Char) : HTree → String → List (Nat × String)
  | .leaf idx, pfx => [(idx, pfx)]
  | .node children, pfx => hForestCodes chars children 0 pfx

/-- Collect code words from a node's children, the `i`-th child extending
the code word with the `i`-th alphabet character. -/
def hForestCodes (chars : List Char) : List HTree → Nat → String → List (Nat × String)
  | [], _, _ => []
  | t :: ts, i, pfx =>
      hTreeCodes chars t (pfx.push (chars.getD i 'a')) ++
        hForestCodes chars ts (i + 1) pfx

end

/-- Deterministic n-ary Huffman code words for a weighted item list
(`huffman.createTree` followed by `assignCodeWords`), modelled from the
spec as documented at `HTree`. -/
def huffmanCodeWords (weights : List Int) (chars : String) : List String :=
  let k := max chars.length 2
  let n := weights.length
  if n = 0 then []
  else
    let padCount := (k - 1 - ((n - 1) % (k - 1))) % (k - 1)
    let leaves := (weights.enum.map (fun p => (p.2, HTree.leaf p.1))) ++
      (List.range padCount).map (fun j => ((0 : Int), HTree.leaf (n + j)))
    let tree := huffmanMerge k (n + padCount) leaves
    let codes := hTreeCodes chars.toList tree ""
    (List.range n).map (fun i =>
      (((codes.find? (fun p => p.1 == i)).map (fun p => p.2)).getD ""))

/-- `combineByHref` as executed inside `assignHints`, with each element
tagged by its position in the sorted array: JS writes code words back
through shared object references, and the position tag stands for that
object identity. -/
def insertByUrlIdx (m : List (String × List (Nat × ElementWithHint)))
    (url : String) (ie : Nat × ElementWithHint) :
    List (String × List (Nat × ElementWithHint)) :=
  match m with
  | [] => [(url, [ie])]
  | (u, es) :: rest =>
      if u = url then (u, es ++ [ie]) :: rest
      else (u, es) :: insertByUrlIdx rest url ie

/-- Position-tagged `combineByHref` (same grouping as `combineByHref`). -/
def combineByHrefIdx (elements : List (Nat × ElementWithHint))
    (mode : HintsMode) :
    List ((List (Nat × ElementWithHint)) ⊕ (Nat × ElementWithHint)) :=
  let (map, rest) := elements.foldl
    (fun acc ie =>
      match getCombiningUrl mode ie.2 with
      | some url => (insertByUrlIdx acc.1 url ie, acc.2)
      | none => (acc.1, acc.2 ++ [ie]))
    ([], [])
  (map.map fun p => Sum.inl p.2) ++ rest.map Sum.inr

/-- The `.weight` the Huffman coder reads from a combined item
(`Combined.weight` for groups, the element's own weight otherwise). -/
def combinedItemWeight :
    (List (Nat × ElementWithHint)) ⊕ (Nat × ElementWithHint) → Int
  | .inl children =>
      (match children.map (fun c => c.2.weight) with
        | [] => 0
        | w :: ws => ws.foldl max w)
  | .inr e => e.2.weight

/-- The code word written back to the element at sorted position `i`
(every member of a combined group receives the group's code word). -/
def hintForPosition
    (combined : List ((List (Nat × ElementWithHint)) ⊕ (Nat × ElementWithHint)))
    (codes : List String) (i : Nat) : String :=
  (((combined.zip codes).find? (fun p =>
      match p.1 with
      | .inl children => children.any (fun c => c.1 == i)
      | .inr e => e.1 == i)).map (fun p => p.2)).getD ""

/-- `assignHints`: weight the elements (inversely to text weight when
filter text is active), stable-sort by weight descending / position /
stable index, combine by URL, run the Huffman coder over the combined
items, and write each code word back to every member of its group. -/
def assignHints (passedElements : List ElementWithHint) (mode : HintsMode)
    (chars : String) (hasEnteredText : Bool) : List ElementWithHint :=
  let largestTextWeight : Int :=
    if hasEnteredText then largestTextWeightOf passedElements else 0
  let elements : List ElementWithHint :=
    jsSortBy compareHints
      (passedElements.map (assignWeight hasEnteredText largestTextWeight))
  let indexed := elements.enum
  let combined := combineByHrefIdx indexed mode
  let codes := huffmanCodeWords (combined.map combinedItemWeight) chars
  indexed.map (fun p => { p.2 with hint := hintForPosition combined codes p.1 })

/-! ## Characterization of `assignHints`'s weighting and sorting (C5) -/

theorem jsOr_lt_zero_iff {x y : Int} :
    jsOr x y < 0 ↔ x < 0 ∨ (x = 0 ∧ y < 0) := by
  unfold jsOr
  split <;> rename_i h <;> omega

theorem jsOr_eq_zero_iff {x y : Int} :
    jsOr x y = 0 ↔ x = 0 ∧ y = 0 := by
  unfold jsOr
  split <;> rename_i h <;> omega

/-- The reading-order key used by the specification: weight, x, y,
original stable index. -/
def specHintKey (e : ElementWithHint) : Int × Int × Int × Int :=
  (e.weight, e.hintMeasurements.x, e.hintMeasurements.y, e.index)

/-- Strict ordering stated by the specification: weight descending, then
x ascending, then y ascending, then original stable index ascending. -/
def specHintLt (a b : ElementWithHint) : Prop :=
  b.weight < a.weight ∨
    (a.weight = b.weight ∧
      (a.hintMeasurements.x < b.hintMeasurements.x ∨
        (a.hintMeasurements.x = b.hintMeasurements.x ∧
          (a.hintMeasurements.y < b.hintMeasurements.y ∨
            (a.hintMeasurements.y = b.hintMeasurements.y ∧
              a.index < b.index)))))

theorem compareHints_lt_iff {a b : ElementWithHint} :
    compareHints a b < 0 ↔ specHintLt a b := by
  unfold compareHints comparePositions specHintLt
  simp only [jsOr_lt_zero_iff, jsOr_eq_zero_iff]
  omega

theorem compareHints_eq_zero_iff {a b : ElementWithHint} :
    compareHints a b = 0 ↔ specHintKey a = specHintKey b := by
  unfold compareHints comparePositions specHintKey
  simp only [jsOr_eq_zero_iff, Prod.mk.injEq]
  omega

theorem jsSortRel_compareHints_trans {p q r : Nat × ElementWithHint} :
    jsSortRel compareHints p q → jsSortRel compareHints q r →
      jsSortRel compareHints p r := by
  unfold jsSortRel
  rw [compareHints_lt_iff, compareHints_lt_iff, compareHints_lt_iff,
    compareHints_eq_zero_iff, compareHints_eq_zero_iff,
    compareHints_eq_zero_iff]
  simp only [specHintLt, specHintKey, Prod.mk.injEq]
  omega

theorem jsSortRel_compareHints_total (p q : Nat × ElementWithHint) :
    jsSortRel compareHints p q ∨ jsSortRel compareHints q p := by
  unfold jsSortRel
  rw [compareHints_lt_iff, compareHints_lt_iff,
    compareHints_eq_zero_iff, compareHints_eq_zero_iff]
  simp only [specHintLt, specHintKey, Prod.mk.injEq]
  omega

theorem jsSortBy_perm {α : Type} (cmp : α → α → Int) (l : List α) :
    (jsSortBy cmp l).Perm l := by
  unfold jsSortBy
  have h := (List.perm_insertionSort (jsSortRel cmp) l.enum).map
    (fun p : Nat × α => p.2)
  have hsnd : (l.enum.map fun p : Nat × α => p.2) = l := List.enum_map_snd l
  rw [hsnd] at h
  exact h

theorem jsSortBy_sorted_compareHints (l : List ElementWithHint) :
    (jsSortBy compareHints l).Pairwise
      (fun a b => specHintLt a b ∨ specHintKey a = specHintKey b) := by
  unfold jsSortBy
  haveI : IsTotal (Nat × ElementWithHint) (jsSortRel compareHints) :=
    ⟨jsSortRel_compareHints_total⟩
  haveI : IsTrans (Nat × ElementWithHint) (jsSortRel compareHints) :=
    ⟨fun _ _ _ => jsSortRel_compareHints_trans⟩
  have hs : (l.enum.insertionSort (jsSortRel compareHints)).Pairwise
      (jsSortRel compareHints) :=
    List.sorted_insertionSort (jsSortRel compareHints) l.enum
  refine List.Pairwise.map _ ?_ hs
  intro p q hpq
  rcases hpq with h | ⟨h, _⟩
  · exact .inl (compareHints_lt_iff.mp h)
  · exact .inr (compareHints_eq_zero_iff.mp h)

theorem eq_of_perm_of_pairwise_lt_fst {α : Type} :
    ∀ {l₁ l₂ : List (Nat × α)}, l₁.Perm l₂ →
      l₁.Pairwise (fun p q => p.1 < q.1) →
      l₂.Pairwise (fun p q => p.1 < q.1) → l₁ = l₂ := by
  intro l₁
  induction l₁ with
  | nil =>
    intro l₂ hp _ _
    exact (hp.symm.eq_nil).symm
  | cons a t ih =>
    intro l₂ hp h1 h2
    cases l₂ with
    | nil => cases hp.eq_nil
    | cons b t₂ =>
      have hab : a = b := by
        by_contra hne
        have ha2 : a ∈ t₂ := by
          rcases List.mem_cons.mp (hp.mem_iff.mp (List.mem_cons_self a t)) with h | h
          · exact absurd h hne
          · exact h
        have hb1 : b ∈ t := by
          rcases List.mem_cons.mp (hp.mem_iff.mpr (List.mem_cons_self b t₂)) with h | h
          · exact absurd h.symm hne
          · exact h
        have hlt₁ : a.1 < b.1 := List.rel_of_pairwise_cons h1 hb1
        have hlt₂ : b.1 < a.1 := List.rel_of_pairwise_cons h2 ha2
        omega
      subst hab
      rw [ih hp.cons_inv h1.of_cons h2.of_cons]

theorem jsSortBy_filter_key (l : List ElementWithHint)
    (k : Int × Int × Int × Int) :
    (jsSortBy compareHints l).filter (fun e => decide (specHintKey e = k)) =
      l.filter (fun e => decide (specHintKey e = k)) := by
  unfold jsSortBy
  haveI : IsTotal (Nat × ElementWithHint) (jsSortRel compareHints) :=
    ⟨jsSortRel_compareHints_total⟩
  haveI : IsTrans (Nat × ElementWithHint) (jsSortRel compareHints) :=
    ⟨fun _ _ _ => jsSortRel_compareHints_trans⟩
  have hperm : (l.enum.insertionSort (jsSortRel compareHints)).Perm l.enum :=
    List.perm_insertionSort _ _
  have hsorted : (l.enum.insertionSort (jsSortRel compareHints)).Pairwise
      (jsSortRel compareHints) :=
    List.sorted_insertionSort (jsSortRel compareHints) l.enum
  rw [List.filter_map]
  conv_rhs => rw [← List.enum_map_snd l, List.filter_map]
  have henum_lt : l.enum.Pairwise (fun p q : Nat × ElementWithHint => p.1 < q.1) := by
    have hr : (l.enum.map Prod.fst).Pairwise (fun x y : Nat => x < y) := by
      rw [List.enum_map_fst]
      exact List.pairwise_lt_range _
    exact List.pairwise_map.mp hr
  congr 1
  set q : Nat × ElementWithHint → Bool :=
    (fun e => decide (specHintKey e = k)) ∘ (fun p : Nat × ElementWithHint => p.2)
    with hq
  apply eq_of_perm_of_pairwise_lt_fst (hperm.filter q)
  · have hsub : ((l.enum.insertionSort (jsSortRel compareHints)).filter q).Sublist
        (l.enum.insertionSort (jsSortRel compareHints)) := List.filter_sublist _
    have h1 : ((l.enum.insertionSort (jsSortRel compareHints)).filter q).Pairwise
        (jsSortRel compareHints) := hsorted.sublist hsub
    have hnodupS : ((l.enum.insertionSort (jsSortRel compareHints)).map
        Prod.fst).Nodup := by
      refine ((hperm.map Prod.fst).nodup_iff).mpr ?_
      rw [List.enum_map_fst]
      exact List.nodup_range _
    have hnodupF : (((l.enum.insertionSort (jsSortRel compareHints)).filter q).map
        Prod.fst).Nodup :=
      (hsub.map Prod.fst).nodup hnodupS
    have hne : ((l.enum.insertionSort (jsSortRel compareHints)).filter q).Pairwise
        (fun p q' => Prod.fst p ≠ Prod.fst q') := List.pairwise_map.mp hnodupF
    refine (h1.and hne).imp_of_mem ?_
    intro a b ha hb hab
    have hqa : q a = true := (List.mem_filter.mp ha).2
    have hqb : q b = true := (List.mem_filter.mp hb).2
    have hka : specHintKey a.2 = k := by
      have := hqa
      rw [hq] at this
      simpa using this
    have hkb : specHintKey b.2 = k := by
      have := hqb
      rw [hq] at this
      simpa using this
    have hcmp : compareHints a.2 b.2 = 0 :=
      compareHints_eq_zero_iff.mpr (hka.trans hkb.symm)
    rcases hab.1 with hlt | ⟨_, hle⟩
    · omega
    · exact lt_of_le_of_ne hle hab.2
  · exact henum_lt.sublist (List.filter_sublist _)

/-- Clear the assigned hint string, keeping every other field. -/
def clearHint (e : ElementWithHint) : ElementWithHint := { e with hint := "" }

/-- The weighted (pre-sort) element list built by `assignHints`. -/
def assignWeighted (p : List ElementWithHint) (het : Bool) :
    List ElementWithHint :=
  p.map (assignWeight het (if het then largestTextWeightOf p else 0))

theorem clearHint_eq_self {e : ElementWithHint} (h : e.hint = "") :
    clearHint e = e := by
  rcases e with ⟨ext, w, hi⟩
  have h' : hi = "" := h
  subst h'
  rfl

theorem map_clearHint_enum_hint (l : List ElementWithHint)
    (f : Nat → String) (h : ∀ e ∈ l, e.hint = "") :
    ((l.enum.map (fun q => { q.2 with hint := f q.1 })).map clearHint) = l := by
  rw [List.map_map]
  have hcongr : l.enum.map
      (clearHint ∘ fun q : Nat × ElementWithHint => { q.2 with hint := f q.1 }) =
      l.enum.map (fun q : Nat × ElementWithHint => q.2) := by
    apply List.map_congr_left
    intro q hq
    have hq2 : q.2 ∈ l := by
      have hm : q.2 ∈ l.enum.map Prod.snd := List.mem_map_of_mem Prod.snd hq
      rwa [List.enum_map_snd] at hm
    show clearHint { q.2 with hint := f q.1 } = q.2
    have hch : clearHint { q.2 with hint := f q.1 } = clearHint q.2 := rfl
    rw [hch, clearHint_eq_self (h _ hq2)]
  rw [hcongr]
  exact List.enum_map_snd l

theorem assignHints_map_clearHint (p : List ElementWithHint) (mode : HintsMode)
    (chars : String) (het : Bool) :
    (assignHints p mode chars het).map clearHint =
      jsSortBy compareHints (assignWeighted p het) := by
  simp only [assignHints, assignWeighted]
  exact map_clearHint_enum_hint _ _ (fun e he => by
    rcases List.mem_map.mp (((jsSortBy_perm compareHints _).mem_iff).mp he) with
      ⟨e0, _, rfl⟩
    rfl)

theorem assignHints_pairwise (p : List ElementWithHint) (mode : HintsMode)
    (chars : String) (het : Bool) :
    (assignHints p mode chars het).Pairwise
      (fun a b => specHintLt a b ∨ specHintKey a = specHintKey b) := by
  have h := jsSortBy_sorted_compareHints (assignWeighted p het)
  rw [← assignHints_map_clearHint p mode chars het] at h
  have h2 := List.pairwise_map.mp h
  refine h2.imp ?_
  intro a b hab
  exact hab

theorem assignHints_weight_formula (p : List ElementWithHint) (mode : HintsMode)
    (chars : String) (het : Bool) {e : ElementWithHint}
    (he : e ∈ assignHints p mode chars het) :
    e.weight = if het then largestTextWeightOf p - e.textWeight + 1
               else e.hintMeasurements.weight := by
  have h1 : clearHint e ∈ (assignHints p mode chars het).map clearHint :=
    List.mem_map_of_mem clearHint he
  rw [assignHints_map_clearHint] at h1
  have h2 : clearHint e ∈ assignWeighted p het :=
    ((jsSortBy_perm _ _).mem_iff).mp h1
  rcases List.mem_map.mp h2 with ⟨e0, _, heq⟩
  have hW := congrArg (fun x : ElementWithHint => x.weight) heq
  have hT := congrArg (fun x : ElementWithHint => x.textWeight) heq
  have hM := congrArg (fun x : ElementWithHint => x.hintMeasurements) heq
  simp only [assignWeight, clearHint] at hW hT hM
  cases het with
  | false =>
    simp only [if_neg Bool.false_ne_true] at hW ⊢
    rw [← hW, ← hM]
  | true =>
    simp only [if_pos rfl] at hW ⊢
    rw [← hW, ← hT]
    simp

/-- C5: `assignHints` gives each element weight `max(1, largest text
weight) - own text weight + 1` when filter text is active and its
on-screen measurement weight otherwise, and stable-sorts the weighted
elements by weight descending, then x ascending, then y ascending, then
original stable index ascending, before combining and coding: the result
is a permutation of the weighted input, pairwise ordered by that key, and
elements with equal keys are kept in original input order. -/
theorem assignHints_weight_and_sort (p : List ElementWithHint)
    (mode : HintsMode) (chars : String) (het : Bool) :
    (1 ≤ largestTextWeightOf p ∧
      (∀ e ∈ p, e.textWeight ≤ largestTextWeightOf p) ∧
      (largestTextWeightOf p = 1 ∨ ∃ e ∈ p, largestTextWeightOf p = e.textWeight)) ∧
    (∀ e ∈ assignHints p mode chars het,
      e.weight = if het then largestTextWeightOf p - e.textWeight + 1
                 else e.hintMeasurements.weight) ∧
    (assignHints p mode chars het).Pairwise
      (fun a b => specHintLt a b ∨ specHintKey a = specHintKey b) ∧
    ((assignHints p mode chars het).map clearHint).Perm (assignWeighted p het) ∧
    ∀ k, (((assignHints p mode chars het).map clearHint).filter
          (fun e => decide (specHintKey e = k))) =
        ((assignWeighted p het).filter (fun e => decide (specHintKey e = k))) := by
  refine ⟨⟨foldl_max_init_le 1 _, ?_, ?_⟩,
    fun e he => assignHints_weight_formula p mode chars het he,
    assignHints_pairwise p mode chars het, ?_, ?_⟩
  · intro e he
    exact foldl_max_mem_le 1 _ _ (List.mem_map_of_mem (fun x => x.textWeight) he)
  · rcases foldl_max_attained 1 (p.map fun e => e.textWeight) with h | h
    · exact .inl h
    · rcases List.mem_map.mp h with ⟨e, he, hw⟩
      exact .inr ⟨e, he, hw.symm⟩
  · rw [assignHints_map_clearHint]
    exact jsSortBy_perm _ _
  · intro k
    rw [assignHints_map_clearHint]
    exact jsSortBy_filter_key _ k

/-! ## Hint Update Engine (`matchesText`, `updateChars`, `updateHints`) -/

/-- Modelled from the spec: `splitEnteredText` lives in `shared/main.ts`,
which is not under `src/`; the specification says the entered filter text
is split into whitespace-separated words. -/
def splitEnteredText (enteredText : String) : List String :=
  let step := fun (c : Char) (acc : List Char × List String) =>
    if c.isWhitespace then
      ([], if acc.1 = [] then acc.2 else String.mk acc.1 :: acc.2)
    else (c :: acc.1, acc.2)
  let folded := enteredText.toList.foldr step ([], [])
  if folded.1 = [] then folded.2 else String.mk folded.1 :: folded.2

/-- `matchesText`: the visible text (lowercased) must contain every
entered word as a substring. -/
def matchesText (passedText : String) (words : List String) : Bool :=
  let text := strToLower passedText
  words.all (fun word => strIncludes text word)

/-- A normalized keypress.  Modelled from the spec: `shared/keyboard.ts`
is not under `src/`; these are the fields `handleHintInput` reads. -/
structure NormalizedKeypress where
  printableKey : Option String
  alt : Bool
  cmd : Bool
  ctrl : Bool
  shift : Bool
  deriving DecidableEq, Repr

/-- The three kinds of hint-mode input (`HintInput`). -/
inductive HintInput where
  | ActivateHint (alt : Bool)
  | Backspace
  | Input (keypress : NormalizedKeypress)
  deriving DecidableEq, Repr

/-- `updateChars`: append the printable key, or erase the last character
on backspace. -/
def updateChars (chars : String) (input : HintInput) : String :=
  match input with
  | .Input keypress =>
      match keypress.printableKey with
      | some key => chars ++ key
      | none => chars
  | .ActivateHint _ => chars
  | .Backspace => strDropLast chars

/-- A matched/activated hint being shown highlighted (`HighlightedItem`). -/
structure HighlightedItem where
  sinceTimestamp : Int
  element : ElementWithHint
  deriving DecidableEq, Repr

/-- The named arguments of `updateHints`. -/
structure UpdateHintsArgs where
  mode : HintsMode
  enteredChars : String
  enteredText : String
  elementsWithHints : List ElementWithHint
  highlighted : List HighlightedItem
  chars : String
  autoActivate : Bool
  matchHighlighted : Bool
  updateMeasurements : Bool
  deriving DecidableEq, Repr

/-- The result record of `updateHints` (`match` is named `matched`, with
the `autoActivated` flag as second component). -/
structure UpdateHintsResult where
  elementsWithHints : List ElementWithHint
  allElementsWithHints : List ElementWithHint
  matched : Option (ElementWithHint × Bool)
  updates : List HintUpdate
  words : List String
  deriving DecidableEq, Repr

/-- `const words = splitEnteredText(enteredText)`. -/
def uhWords (a : UpdateHintsArgs) : List String := splitEnteredText a.enteredText

/-- `const hasEnteredText = enteredText !== ""`. -/
def uhHasEnteredText (a : UpdateHintsArgs) : Bool := a.enteredText != ""

/-- The text-matching half of `partition(passedElementsWithHints, ...)`
(the `partition` helper from `shared/main.ts` splits a list into the
elements satisfying the predicate and the rest, preserving order). -/
def uhMatching (a : UpdateHintsArgs) : List ElementWithHint :=
  a.elementsWithHints.filter (fun e => matchesText e.text (uhWords a))

/-- The non-matching half of the partition. -/
def uhNonMatching (a : UpdateHintsArgs) : List ElementWithHint :=
  a.elementsWithHints.filter (fun e => !matchesText e.text (uhWords a))

/-- `assignHints(matching, ...)` — hints recomputed for the matching
subset only. -/
def uhAssigned (a : UpdateHintsArgs) : List ElementWithHint :=
  assignHints (uhMatching a) a.mode a.chars (uhHasEnteredText a)

/-- Elements that remain after dropping the ones hidden *after* hint
assignment. -/
def uhActive (a : UpdateHintsArgs) : List ElementWithHint :=
  (uhAssigned a).filter (fun e => !e.hidden)

/-- `allHints`: active hints that start with the entered hint characters. -/
def uhAllHints (a : UpdateHintsArgs) : List String :=
  ((uhActive a).map (fun e => e.hint)).filter
    (fun h => jsStartsWith h a.enteredChars)

/-- `matchingHints`: candidate hints equal to the entered characters. -/
def uhMatchingHints (a : UpdateHintsArgs) : List String :=
  (uhAllHints a).filter (fun h => h == a.enteredChars)

/-- `autoActivate = hasEnteredTextOnly && autoActivateOption`. -/
def uhAutoActivate (a : UpdateHintsArgs) : Bool :=
  (uhHasEnteredText a && (a.enteredChars == "")) && a.autoActivate

/-- `matchedHint`: the sole member of the matching set, when singleton. -/
def uhMatchedHint (a : UpdateHintsArgs) : Option String :=
  match jsSetList (if uhAutoActivate a then uhAllHints a else uhMatchingHints a) with
  | [h] => some h
  | _ => none

/-- `highlightedHint = hasEnteredText ? allHints[0] : undefined`. -/
def uhHighlightedHint (a : UpdateHintsArgs) : Option String :=
  if uhHasEnteredText a then (uhAllHints a).head? else none

/-- The resolved match (`elementsWithHints.find(...)`). -/
def uhMatch (a : UpdateHintsArgs) : Option ElementWithHint :=
  (uhActive a).find? (fun e =>
    (uhMatchedHint a == some e.hint) ||
      (a.matchHighlighted && (uhHighlightedHint a == some e.hint)))

/-- `highlightedKeys` (a JS `Set` of element keys, used via `.has`). -/
def uhHighlightedKeys (a : UpdateHintsArgs) : List String :=
  a.highlighted.map (fun h => elementKey h.element)

/-- Whether one element is rendered highlighted. -/
def uhIsHighlighted (a : UpdateHintsArgs) (element : ElementWithHint) : Bool :=
  (match uhMatch a with
   | some m => element.hint == m.hint
   | none => false) ||
  (uhHighlightedHint a == some element.hint) ||
  (uhHighlightedKeys a).contains (elementKey element)

/-- The emitted per-element update list. -/
def uhUpdates (a : UpdateHintsArgs) : List HintUpdate :=
  ((uhAssigned a).enum.map (fun p =>
    let element := p.2
    let matchesChars := jsStartsWith element.hint a.enteredChars
    let isHighlighted := uhIsHighlighted a element
    if a.updateMeasurements then
      HintUpdate.UpdatePosition element.index (p.1 : Int) element.hint
        element.hintMeasurements isHighlighted (element.hidden || !matchesChars)
    else if matchesChars && ((uhMatch a).isNone || isHighlighted) then
      HintUpdate.UpdateContent element.index (p.1 : Int) a.enteredChars
        (strDropFirst element.hint a.enteredChars.length) isHighlighted
        element.hidden
    else
      HintUpdate.Hide element.index true)) ++
  (uhNonMatching a).map (fun element => HintUpdate.Hide element.index true)

/-- `updateHints`: the central per-keystroke recomputation. -/
def updateHints (a : UpdateHintsArgs) : UpdateHintsResult :=
  { elementsWithHints := uhActive a
    allElementsWithHints := uhAssigned a ++ uhNonMatching a
    matched := (uhMatch a).map (fun m => (m, uhAutoActivate a))
    updates := uhUpdates a
    words := uhWords a }

/-! ## The match condition of `updateHints` (C2) -/

theorem jsSetList_eq_nil_iff {l : List String} : jsSetList l = [] ↔ l = [] := by
  cases l with
  | nil => simp [jsSetList_nil]
  | cons a xs => simp [jsSetList_cons]

theorem jsSetList_singleton_iff {h : String} {l : List String} :
    jsSetList l = [h] ↔ (l ≠ [] ∧ ∀ x ∈ l, x = h) := by
  cases l with
  | nil => simp [jsSetList_nil]
  | cons a xs =>
    simp only [jsSetList_cons, List.cons.injEq]
    constructor
    · rintro ⟨rfl, htail⟩
      have hfil : List.filter (fun y => decide (y ≠ a)) xs = [] :=
        jsSetList_eq_nil_iff.mp htail
      rw [List.filter_eq_nil_iff] at hfil
      refine ⟨by simp, ?_⟩
      intro x hx
      rcases List.mem_cons.mp hx with rfl | hx
      · rfl
      · have := hfil x hx
        simpa using this
    · rintro ⟨_, hall⟩
      have ha : a = h := hall a (List.mem_cons_self a xs)
      subst ha
      refine ⟨rfl, ?_⟩
      rw [jsSetList_eq_nil_iff, List.filter_eq_nil_iff]
      intro x hx
      simp [hall x (List.mem_cons_of_mem a hx)]

theorem uhMatchedHint_isSome_iff (a : UpdateHintsArgs) :
    (uhMatchedHint a).isSome = true ↔
      ∃ h, (if uhAutoActivate a then uhAllHints a else uhMatchingHints a) ≠ [] ∧
        ∀ x ∈ (if uhAutoActivate a then uhAllHints a else uhMatchingHints a),
          x = h := by
  unfold uhMatchedHint
  constructor
  · intro hsome
    split at hsome
    next h heq => exact ⟨h, jsSetList_singleton_iff.mp heq⟩
    next => simp at hsome
  · rintro ⟨h, hne, hall⟩
    have heq : jsSetList
        (if uhAutoActivate a then uhAllHints a else uhMatchingHints a) = [h] :=
      jsSetList_singleton_iff.mpr ⟨hne, hall⟩
    rw [heq]
    rfl

theorem uhMatchedHint_mem {a : UpdateHintsArgs} {h : String}
    (hm : uhMatchedHint a = some h) : h ∈ uhAllHints a := by
  unfold uhMatchedHint at hm
  split at hm
  next h' heq =>
    have hh : h' = h := Option.some.inj hm
    subst hh
    have hmem : h' ∈ jsSetList
        (if uhAutoActivate a then uhAllHints a else uhMatchingHints a) := by
      rw [heq]
      exact List.mem_cons_self _ _
    have := mem_jsSetList.mp hmem
    split at this
    · exact this
    · exact (List.mem_filter.mp this).1
  next => cases hm

theorem mem_uhAllHints_exists {a : UpdateHintsArgs} {h : String}
    (hmem : h ∈ uhAllHints a) : ∃ e ∈ uhActive a, e.hint = h := by
  rcases List.mem_filter.mp hmem with ⟨hmap, _⟩
  rcases List.mem_map.mp hmap with ⟨e, he, rfl⟩
  exact ⟨e, he, rfl⟩

theorem uhHighlightedHint_isSome_iff (a : UpdateHintsArgs) :
    (uhHighlightedHint a).isSome = true ↔
      (uhHasEnteredText a = true ∧ uhAllHints a ≠ []) := by
  unfold uhHighlightedHint
  by_cases ht : uhHasEnteredText a = true
  · rw [if_pos ht]
    cases hl : uhAllHints a with
    | nil => simp [ht, hl]
    | cons x xs => simp [ht, hl]
  · rw [if_neg ht]
    simp [ht]

theorem uhHighlightedHint_mem {a : UpdateHintsArgs} {h : String}
    (hm : uhHighlightedHint a = some h) : h ∈ uhAllHints a := by
  unfold uhHighlightedHint at hm
  split at hm
  · exact List.mem_of_mem_head? hm
  · cases hm

theorem uhAutoActivate_iff (a : UpdateHintsArgs) :
    uhAutoActivate a = true ↔
      (a.enteredText ≠ "" ∧ a.enteredChars = "" ∧ a.autoActivate = true) := by
  unfold uhAutoActivate uhHasEnteredText
  simp only [Bool.and_eq_true, bne_iff_ne, beq_iff_eq]
  tauto

theorem uhMatch_isSome_iff (a : UpdateHintsArgs) :
    ((uhMatch a).isSome = true) ↔
      ((uhMatchedHint a).isSome = true ∨
        (a.matchHighlighted = true ∧ (uhHighlightedHint a).isSome = true)) := by
  unfold uhMatch
  rw [List.find?_isSome]
  constructor
  · rintro ⟨e, _, hpred⟩
    simp only [Bool.or_eq_true, Bool.and_eq_true, beq_iff_eq] at hpred
    rcases hpred with hm | ⟨hmh, hh⟩
    · exact .inl (by rw [hm]; rfl)
    · exact .inr ⟨hmh, by rw [hh]; rfl⟩
  · rintro (hm | ⟨hmh, hh⟩)
    · rcases Option.isSome_iff_exists.mp hm with ⟨h, hm'⟩
      rcases mem_uhAllHints_exists (uhMatchedHint_mem hm') with ⟨e, he, rfl⟩
      exact ⟨e, he, by simp [hm']⟩
    · rcases Option.isSome_iff_exists.mp hh with ⟨h, hh'⟩
      rcases mem_uhAllHints_exists (uhHighlightedHint_mem hh') with ⟨e, he, rfl⟩
      exact ⟨e, he, by simp [hh', hmh]⟩

theorem exists_all_eq_iff {s : List String} :
    (∃ h, s ≠ [] ∧ ∀ x ∈ s, x = h) ↔ (∃ h ∈ s, ∀ x ∈ s, x = h) := by
  constructor
  · rintro ⟨h, hne, hall⟩
    rcases List.exists_mem_of_ne_nil s hne with ⟨y, hy⟩
    exact ⟨h, (hall y hy) ▸ hy, hall⟩
  · rintro ⟨h, hmem, hall⟩
    refine ⟨h, ?_, hall⟩
    intro hnil
    rw [hnil] at hmem
    cases hmem

theorem matchingHints_cond_iff (a : UpdateHintsArgs) :
    (∃ h, uhMatchingHints a ≠ [] ∧ ∀ x ∈ uhMatchingHints a, x = h) ↔
      ∃ h ∈ uhAllHints a, h = a.enteredChars := by
  constructor
  · rintro ⟨h, hne, _⟩
    rcases List.exists_mem_of_ne_nil _ hne with ⟨x, hx⟩
    rcases List.mem_filter.mp hx with ⟨hx1, hx2⟩
    exact ⟨x, hx1, by simpa using hx2⟩
  · rintro ⟨h, hmem, heq⟩
    subst heq
    refine ⟨a.enteredChars, ?_, ?_⟩
    · intro hnil
      have : a.enteredChars ∈ uhMatchingHints a :=
        List.mem_filter.mpr ⟨hmem, by simp⟩
      rw [hnil] at this
      cases this
    · intro x hx
      have := (List.mem_filter.mp hx).2
      simpa using this

/-- The candidate hints of an Update Engine result: hints of the active
elements that start with the entered hint characters. -/
def candidateHints (a : UpdateHintsArgs) : List String :=
  (((updateHints a).elementsWithHints).map (fun e => e.hint)).filter
    (fun h => jsStartsWith h a.enteredChars)

theorem candidateHints_eq (a : UpdateHintsArgs) :
    candidateHints a = uhAllHints a := rfl

theorem updateHints_matched_isSome (a : UpdateHintsArgs) :
    ((updateHints a).matched.isSome) = (uhMatch a).isSome := by
  show ((uhMatch a).map (fun m => (m, uhAutoActivate a))).isSome = (uhMatch a).isSome
  cases uhMatch a <;> rfl

/-- C2 (amended): `updateHints` reports a resolved match exactly when —
outside the auto-activate case — some candidate hint equals the entered
hint characters (equivalently, exactly one *distinct* hint does), or — in
the auto-activate case (auto-activate enabled, filter text entered, no
hint characters) — exactly one distinct hint remains among the
candidates, or the matchHighlighted flag is set *and filter text has been
entered* and at least one candidate remains (the first candidate then
being the match). -/
theorem updateHints_match_iff (a : UpdateHintsArgs) :
    ((updateHints a).matched.isSome = true) ↔
      ((¬ (a.enteredText ≠ "" ∧ a.enteredChars = "" ∧ a.autoActivate = true)) ∧
        ∃ h ∈ candidateHints a, h = a.enteredChars) ∨
      ((a.enteredText ≠ "" ∧ a.enteredChars = "" ∧ a.autoActivate = true) ∧
        ∃ h ∈ candidateHints a, ∀ x ∈ candidateHints a, x = h) ∨
      (a.matchHighlighted = true ∧ a.enteredText ≠ "" ∧
        candidateHints a ≠ []) := by
  rw [show ((updateHints a).matched.isSome = true) ↔ ((uhMatch a).isSome = true) by
    rw [updateHints_matched_isSome]]
  rw [uhMatch_isSome_iff, uhMatchedHint_isSome_iff, uhHighlightedHint_isSome_iff,
    candidateHints_eq]
  have htext : uhHasEnteredText a = true ↔ a.enteredText ≠ "" := by
    unfold uhHasEnteredText
    simp [bne_iff_ne]
  by_cases hauto : uhAutoActivate a = true
  · have hcond := (uhAutoActivate_iff a).mp hauto
    rw [if_pos hauto]
    constructor
    · rintro (hsing | ⟨hmh, _, hne⟩)
      · exact .inr (.inl ⟨hcond, exists_all_eq_iff.mp hsing⟩)
      · exact .inr (.inr ⟨hmh, hcond.1, hne⟩)
    · rintro (⟨hnc, _⟩ | ⟨_, hsing⟩ | ⟨hmh, htx, hne⟩)
      · exact absurd hcond hnc
      · exact .inl (exists_all_eq_iff.mpr hsing)
      · exact .inr ⟨hmh, htext.mpr htx, hne⟩
  · have hcond : ¬ (a.enteredText ≠ "" ∧ a.enteredChars = "" ∧
        a.autoActivate = true) := fun hc => hauto ((uhAutoActivate_iff a).mpr hc)
    rw [if_neg hauto]
    constructor
    · rintro (hsing | ⟨hmh, htx, hne⟩)
      · exact .inl ⟨hcond, (matchingHints_cond_iff a).mp hsing⟩
      · exact .inr (.inr ⟨hmh, htext.mp htx, hne⟩)
    · rintro (⟨_, hex⟩ | ⟨hc, _⟩ | ⟨hmh, htx, hne⟩)
      · exact .inl ((matchingHints_cond_iff a).mpr hex)
      · exact absurd hc hcond
      · exact .inr ⟨hmh, htext.mpr htx, hne⟩

/-- A URL-less clickable element (not combined in Click mode). -/
def c2ElementA : ElementWithHint :=
  { sampleElement with url := none, urlWithTarget := none }

/-- A second URL-less element at the next stable index. -/
def c2ElementB : ElementWithHint :=
  { c2ElementA with index := 1 }

/-- The concrete input refuting C2 as stated: an activation keypress
(`matchHighlighted`) with no entered text and two remaining candidates. -/
def c2Args : UpdateHintsArgs :=
  { mode := .Click
    enteredChars := ""
    enteredText := ""
    elementsWithHints := [c2ElementA, c2ElementB]
    highlighted := []
    chars := "ab"
    autoActivate := false
    matchHighlighted := true
    updateMeasurements := false }

/-- C2 counterexample: at `c2Args` the claim as stated fails — the
matchHighlighted flag is set and candidates remain, so the claim demands
a resolved match, but `updateHints` reports none (the highlighted-match
path requires entered filter text). -/
theorem updateHints_match_counterexample :
    ¬ (((updateHints c2Args).matched.isSome = true) ↔
      ((∃ h ∈ candidateHints c2Args, h = c2Args.enteredChars) ∨
        ((c2Args.enteredText ≠ "" ∧ c2Args.enteredChars = "" ∧
            c2Args.autoActivate = true) ∧
          ∃ h ∈ candidateHints c2Args, ∀ x ∈ candidateHints c2Args, x = h) ∨
        (c2Args.matchHighlighted = true ∧ candidateHints c2Args ≠ []))) := by
  decide

/-! ## Text filtering is monotone narrowing (C6) -/

/-- Strip the fields `assignHints` rewrites (weight and hint). -/
def stripAssign (e : ElementWithHint) : ElementWithHint :=
  { e with weight := 0, hint := "" }

theorem assignHints_map_stripAssign (p : List ElementWithHint)
    (mode : HintsMode) (chars : String) (het : Bool) :
    ((assignHints p mode chars het).map stripAssign).Perm
      (p.map stripAssign) := by
  have h1 : (assignHints p mode chars het).map stripAssign =
      (jsSortBy compareHints (assignWeighted p het)).map stripAssign := by
    rw [← assignHints_map_clearHint p mode chars het, List.map_map]
    apply List.map_congr_left
    intro e _
    rfl
  rw [h1]
  have h2 := (jsSortBy_perm compareHints (assignWeighted p het)).map stripAssign
  have h3 : (assignWeighted p het).map stripAssign = p.map stripAssign := by
    unfold assignWeighted
    rw [List.map_map]
    apply List.map_congr_left
    intro e _
    rfl
  rw [h3] at h2
  exact h2

theorem matchesText_mono {t : String} {w1 w2 : List String}
    (hsub : ∀ w ∈ w2, w ∈ w1) (h : matchesText t w1 = true) :
    matchesText t w2 = true := by
  unfold matchesText at h ⊢
  rw [List.all_eq_true] at h ⊢
  intro w hw
  exact h w (hsub w hw)

/-- C6: an element matches a filter exactly when its lowercased visible
text contains every whitespace-separated word as a substring; hence for a
filter text `t1` whose words extend `t2`'s, every active element the
Update Engine computes for `t1` still matches `t2` and is (up to the
reassigned weight and hint) a member of `t2`'s matching set. -/
theorem matchesText_spec_and_monotone :
    (∀ (text : String) (words : List String),
      matchesText text words = true ↔
        ∀ w ∈ words, w.toList <:+: (strToLower text).toList) ∧
    (∀ (a : UpdateHintsArgs) (t1 t2 : String),
      (∀ w ∈ splitEnteredText t2, w ∈ splitEnteredText t1) →
      ∀ e ∈ (updateHints { a with enteredText := t1 }).elementsWithHints,
        matchesText e.text (splitEnteredText t2) = true ∧
        ∃ e0 ∈ a.elementsWithHints.filter
            (fun x => matchesText x.text (splitEnteredText t2)),
          stripAssign e0 = stripAssign e) := by
  constructor
  · intro text words
    unfold matchesText strIncludes
    rw [List.all_eq_true]
    constructor
    · intro h w hw
      simpa using h w hw
    · intro h w hw
      simpa using h w hw
  · intro a t1 t2 hsub e he
    have he' : e ∈ uhAssigned { a with enteredText := t1 } :=
      (List.mem_filter.mp he).1
    have hstrip : stripAssign e ∈
        (uhMatching { a with enteredText := t1 }).map stripAssign := by
      have hmem := List.mem_map_of_mem stripAssign he'
      exact ((assignHints_map_stripAssign _ _ _ _).mem_iff).mp hmem
    rcases List.mem_map.mp hstrip with ⟨e0, he0, heq⟩
    rcases List.mem_filter.mp he0 with ⟨he0mem, he0match⟩
    have hw1 : matchesText e0.text (splitEnteredText t1) = true := he0match
    have hw2 : matchesText e0.text (splitEnteredText t2) = true :=
      matchesText_mono hsub hw1
    have htext : e0.text = e.text := congrArg (fun x => x.text) heq
    exact ⟨htext ▸ hw2, e0, List.mem_filter.mpr ⟨he0mem, hw2⟩, heq⟩

/-- Arguments for the C6 witness. -/
def c6Args : UpdateHintsArgs :=
  { mode := .Click
    enteredChars := ""
    enteredText := ""
    elementsWithHints := [sampleElement, { c2ElementA with text := "zzz" }]
    highlighted := []
    chars := "ab"
    autoActivate := false
    matchHighlighted := false
    updateMeasurements := false }

/-- Witness for C6 at concrete filter texts `"sam ple"` and `"sam"`. -/
theorem matchesText_spec_and_monotone_witness :
    matchesText ({ sampleElement with weight := 1, hint := "" } :
        ElementWithHint).text (splitEnteredText "sam") = true ∧
      ∃ e0 ∈ c6Args.elementsWithHints.filter
          (fun x => matchesText x.text (splitEnteredText "sam")),
        stripAssign e0 =
          stripAssign { sampleElement with weight := 1, hint := "" } :=
  matchesText_spec_and_monotone.2 c6Args "sam ple" "sam" (by decide) _ (by decide)

/-! ## `mergeElements` (C10) -/

/-- `new Map(updates.map((update) => [update.index, update]))` followed by
`.get(i)`: the *last* update whose per-frame index is `i` wins. -/
def updateMapGet (updates : List ElementReport) (i : Int) :
    Option ElementReport :=
  updates.foldl (fun acc u => if u.index = i then some u else acc) none

/-- `mergeElements`: merge a frame's fresh measurement reports into the
current elements, hiding elements that no longer report. -/
def mergeElements (elementsWithHints : List ElementWithHint)
    (updates : List ElementReport) (frameId : Int) : List ElementWithHint :=
  elementsWithHints.map (fun element =>
    if element.frame.id ≠ frameId then element
    else
      match updateMapGet updates element.frame.index with
      | none => { element with hidden := true }
      | some update =>
          { type := update.type
            index := element.index
            hintMeasurements := { update.hintMeasurements with
              weight := element.hintMeasurements.weight }
            url := update.url
            urlWithTarget := update.urlWithTarget
            text := update.text
            textContent := update.textContent
            textWeight := element.textWeight
            isTextInput := update.isTextInput
            hasClickListener := update.hasClickListener
            frame := element.frame
            hidden := false
            weight := element.weight
            hint := element.hint })

theorem updateMapGet_eq_none_iff (updates : List ElementReport) (i : Int) :
    updateMapGet updates i = none ↔ ∀ u ∈ updates, u.index ≠ i := by
  unfold updateMapGet
  induction updates using List.reverseRecOn with
  | nil => simp
  | append_singleton us u ih =>
    rw [List.foldl_append]
    simp only [List.foldl_cons, List.foldl_nil]
    by_cases hu : u.index = i
    · rw [if_pos hu]
      constructor
      · intro h
        cases h
      · intro h
        exact absurd hu
          (h u (List.mem_append.mpr (.inr (List.mem_singleton.mpr rfl))))
    · rw [if_neg hu]
      rw [ih]
      constructor
      · intro h v hv
        rcases List.mem_append.mp hv with hv | hv
        · exact h v hv
        · rcases List.mem_singleton.mp hv with rfl
          exact hu
      · intro h v hv
        exact h v (List.mem_append.mpr (.inl hv))

theorem updateMapGet_eq_some (updates : List ElementReport) (i : Int)
    {u : ElementReport} (h : updateMapGet updates i = some u) :
    u ∈ updates ∧ u.index = i := by
  unfold updateMapGet at h
  induction updates using List.reverseRecOn with
  | nil => cases h
  | append_singleton us v ih =>
    rw [List.foldl_append] at h
    simp only [List.foldl_cons, List.foldl_nil] at h
    by_cases hv : v.index = i
    · rw [if_pos hv] at h
      rcases Option.some.inj h with rfl
      exact ⟨List.mem_append.mpr (.inr (List.mem_singleton.mpr rfl)), hv⟩
    · rw [if_neg hv] at h
      rcases ih h with ⟨hmem, hidx⟩
      exact ⟨List.mem_append.mpr (.inl hmem), hidx⟩

/-- C10: `mergeElements` preserves hint identity under re-measurement:
elements of other frames are unchanged; elements of the frame with no
matching update are only marked hidden; elements with a matching update
keep hint, assignment weight, text weight, stable index, frame and
measurement weight, and take the fresh measurements, URL, text and flags
from the update, with `hidden` reset to false. -/
theorem mergeElements_spec (elements : List ElementWithHint)
    (updates : List ElementReport) (frameId : Int) (i : Nat)
    (e : ElementWithHint) (hE : elements[i]? = some e) :
    ∃ o, (mergeElements elements updates frameId)[i]? = some o ∧
      (e.frame.id ≠ frameId → o = e) ∧
      (e.frame.id = frameId →
        ((∀ u ∈ updates, u.index ≠ e.frame.index) →
          o.hidden = true ∧ o.type = e.type ∧ o.index = e.index ∧
          o.hintMeasurements = e.hintMeasurements ∧ o.url = e.url ∧
          o.urlWithTarget = e.urlWithTarget ∧ o.text = e.text ∧
          o.textContent = e.textContent ∧ o.textWeight = e.textWeight ∧
          o.isTextInput = e.isTextInput ∧
          o.hasClickListener = e.hasClickListener ∧ o.frame = e.frame ∧
          o.weight = e.weight ∧ o.hint = e.hint) ∧
        (∀ u, updateMapGet updates e.frame.index = some u →
          u ∈ updates ∧ u.index = e.frame.index ∧
          o.hint = e.hint ∧ o.weight = e.weight ∧
          o.textWeight = e.textWeight ∧ o.index = e.index ∧
          o.frame = e.frame ∧
          o.hintMeasurements.weight = e.hintMeasurements.weight ∧
          o.hintMeasurements.x = u.hintMeasurements.x ∧
          o.hintMeasurements.y = u.hintMeasurements.y ∧
          o.hintMeasurements.align = u.hintMeasurements.align ∧
          o.hintMeasurements.maxX = u.hintMeasurements.maxX ∧
          o.url = u.url ∧ o.urlWithTarget = u.urlWithTarget ∧
          o.text = u.text ∧ o.textContent = u.textContent ∧
          o.isTextInput = u.isTextInput ∧
          o.hasClickListener = u.hasClickListener ∧ o.type = u.type ∧
          o.hidden = false)) := by
  have hmap : (mergeElements elements updates frameId)[i]? =
      elements[i]?.map (fun element =>
        if element.frame.id ≠ frameId then element
        else
          match updateMapGet updates element.frame.index with
          | none => { element with hidden := true }
          | some update =>
              { type := update.type
                index := element.index
                hintMeasurements := { update.hintMeasurements with
                  weight := element.hintMeasurements.weight }
                url := update.url
                urlWithTarget := update.urlWithTarget
                text := update.text
                textContent := update.textContent
                textWeight := element.textWeight
                isTextInput := update.isTextInput
                hasClickListener := update.hasClickListener
                frame := element.frame
                hidden := false
                weight := element.weight
                hint := element.hint }) := List.getElem?_map _ _ _
  rw [hE] at hmap
  refine ⟨_, hmap.trans rfl, ?_, ?_⟩
  · intro hne
    simp only [if_pos hne]
  · intro hfid
    constructor
    · intro hnone
      have h0 : updateMapGet updates e.frame.index = none :=
        (updateMapGet_eq_none_iff updates e.frame.index).mpr hnone
      simp [hfid, h0]
    · intro u hu
      rcases updateMapGet_eq_some updates e.frame.index hu with ⟨hmem, hidx⟩
      refine ⟨hmem, hidx, ?_⟩
      simp [hfid, hu]

/-- A fresh measurement report used by the C10 witness. -/
def c10Update : ElementReport :=
  { sampleElement.toElementReport with
      index := 0
      text := "fresh" }

/-- Witness for C10: one element of the frame, one matching update. -/
theorem mergeElements_spec_witness :
    ∃ o, (mergeElements [sampleElement] [c10Update] 0)[0]? = some o ∧
      (sampleElement.frame.id ≠ 0 → o = sampleElement) ∧
      (sampleElement.frame.id = 0 →
        ((∀ u ∈ [c10Update], u.index ≠ sampleElement.frame.index) →
          o.hidden = true ∧ o.type = sampleElement.type ∧
          o.index = sampleElement.index ∧
          o.hintMeasurements = sampleElement.hintMeasurements ∧
          o.url = sampleElement.url ∧
          o.urlWithTarget = sampleElement.urlWithTarget ∧
          o.text = sampleElement.text ∧
          o.textContent = sampleElement.textContent ∧
          o.textWeight = sampleElement.textWeight ∧
          o.isTextInput = sampleElement.isTextInput ∧
          o.hasClickListener = sampleElement.hasClickListener ∧
          o.frame = sampleElement.frame ∧
          o.weight = sampleElement.weight ∧ o.hint = sampleElement.hint) ∧
        (∀ u, updateMapGet [c10Update] sampleElement.frame.index = some u →
          u ∈ [c10Update] ∧ u.index = sampleElement.frame.index ∧
          o.hint = sampleElement.hint ∧ o.weight = sampleElement.weight ∧
          o.textWeight = sampleElement.textWeight ∧
          o.index = sampleElement.index ∧ o.frame = sampleElement.frame ∧
          o.hintMeasurements.weight = sampleElement.hintMeasurements.weight ∧
          o.hintMeasurements.x = u.hintMeasurements.x ∧
          o.hintMeasurements.y = u.hintMeasurements.y ∧
          o.hintMeasurements.align = u.hintMeasurements.align ∧
          o.hintMeasurements.maxX = u.hintMeasurements.maxX ∧
          o.url = u.url ∧ o.urlWithTarget = u.urlWithTarget ∧
          o.text = u.text ∧ o.textContent = u.textContent ∧
          o.isTextInput = u.isTextInput ∧
          o.hasClickListener = u.hasClickListener ∧ o.type = u.type ∧
          o.hidden = false)) :=
  mergeElements_spec [sampleElement] [c10Update] 0 0 sampleElement (by decide)

/-! ## Tab Hinting State Machine (`TopFrameController`) -/

/-- The tweakable timing constants (`t` in the source), in milliseconds. -/
def FRAME_REPORT_TIMEOUT : Int := 100

/-- Badge spinner delay (`BADGE_COLLECTING_DELAY`). -/
def BADGE_COLLECTING_DELAY : Int := 300

/-- Periodic refresh interval (`UPDATE_INTERVAL`). -/
def UPDATE_INTERVAL : Int := 500

/-- Match highlight duration (`MATCH_HIGHLIGHT_DURATION`). -/
def MATCH_HIGHLIGHT_DURATION : Int := 200

/-- The top frame id (`TOP_FRAME_ID`). -/
def TOP_FRAME_ID : Int := 0

/-- Frame bookkeeping of a Collecting cycle (`pendingFrames`). -/
structure PendingFrames where
  answering : Nat
  collecting : Nat
  lastStartWaitTimestamp : Int
  deriving DecidableEq, Repr

/-- Accumulated reports plus frame bookkeeping (`PendingElements`). -/
structure PendingElements where
  pendingFrames : PendingFrames
  elements : List ExtendedElementReport
  deriving DecidableEq, Repr

/-- The refresh sub-state of a Hinting state (`UpdateState`). -/
inductive UpdateState where
  | WaitingForResponse (lastUpdateStartTimestamp : Int)
  | WaitingForTimeout (lastUpdateStartTimestamp : Int)
  deriving DecidableEq, Repr

/-- The Collecting variant's payload.  The `time` / `stats` fields
(`TimeTracker`, `Array<Stats>`) are perf instrumentation and are omitted
from the embedding (they are never read by any modelled decision). -/
structure CollectingData where
  mode : HintsMode
  pendingElements : PendingElements
  startTime : Int
  refreshing : Bool
  highlighted : List HighlightedItem
  deriving DecidableEq, Repr

/-- The Hinting variant's payload (perf fields omitted as above). -/
structure HintingData where
  mode : HintsMode
  startTime : Int
  enteredChars : String
  enteredText : String
  elementsWithHints : List ElementWithHint
  highlighted : List HighlightedItem
  updateState : UpdateState
  peeking : Bool
  deriving DecidableEq, Repr

/-- The per-tab hints state (`HintsState`), a closed three-variant union. -/
inductive HintsState where
  | Collecting (d : CollectingData)
  | Hinting (d : HintingData)
  | Idle (highlighted : List HighlightedItem)
  deriving DecidableEq, Repr

/-- Whether the state is in the Hinting variant. -/
def HintsState.isHinting : HintsState → Bool
  | .Hinting _ => true
  | _ => false

/-- The highlighted items carried by any variant. -/
def HintsState.highlightedItems : HintsState → List HighlightedItem
  | .Collecting d => d.highlighted
  | .Hinting d => d.highlighted
  | .Idle highlighted => highlighted

/-- The keyboard mode of the tab (`KeyboardModeBackground`). -/
inductive KeyboardModeTag where
  | FromHintsState
  | PreventOverTyping (sinceTimestamp : Int)
  deriving DecidableEq, Repr

/-- The per-tab state (`TabState`); `perf`, `isOptionsPage` and
`isPinned` are plumbing fields never read by the embedded methods and
are omitted. -/
structure CtrlState where
  hintsState : HintsState
  keyboardMode : KeyboardModeTag
  deriving DecidableEq, Repr

/-- The options the embedded methods read (`OptionsData`). -/
structure Options where
  chars : String
  autoActivate : Bool
  overTypingDuration : Int
  mac : Bool
  deriving DecidableEq, Repr

/-- `ElementTypes`: either the special "selectable" selector or a list. -/
inductive ElementTypesSel where
  | selectable
  | list (types : List ElementType)
  deriving DecidableEq, Repr

/-- Messages to worker frames (`ToWorker`), limited to the payload fields
the embedded methods produce.  `stateSync` keeps only `clearElements`
(the keyboard-shortcut payload is derived from out-of-scope options). -/
inductive ToWorkerMsg where
  | clickElement (index : Int)
  | selectElement (index : Int)
  | copyElement (index : Int)
  | focusElement (index : Int)
  | getTextRectsMsg (indexes : List Int) (words : List String)
  | updateElementsMsg
  | startFindElements (types : ElementTypesSel)
  | stateSync (clearElements : Bool)
  deriving DecidableEq, Repr

/-- Messages to the renderer (`ToRenderer`). -/
inductive ToRendererMsg where
  | render (elements : List ElementRender) (mixedCase : Bool)
  | updateHintsMsg (updates : List HintUpdate) (enteredText : String)
  | removeShruggie
  deriving DecidableEq, Repr

/-- Delivery target of a worker message. -/
inductive FrameTarget where
  | allFrames
  | frame (id : Int)
  deriving DecidableEq, Repr

/-- The observable side effects of the controller methods: outbound
messages, badge updates, scheduled timeouts and tab creations. -/
inductive Effect where
  | toWorker (msg : ToWorkerMsg) (target : FrameTarget)
  | toRenderer (msg : ToRendererMsg)
  | setBadge (text : String)
  | schedule (ms : Int)
  | createTab (url : String) (foreground : Bool)
  deriving DecidableEq, Repr

/-- `CLICK_TYPES`. -/
def CLICK_TYPES : List ElementType :=
  [.clickable, .clickableEvent, .sometimesClickable, .link, .textarea]

/-- `TAB_TYPES`. -/
def TAB_TYPES : List ElementType := [.link]

/-- `getElementTypes`. -/
def getElementTypes (mode : HintsMode) : ElementTypesSel :=
  match mode with
  | .Click => .list CLICK_TYPES
  | .BackgroundTab => .list TAB_TYPES
  | .ForegroundTab => .list TAB_TYPES
  | .ManyClick => .list CLICK_TYPES
  | .ManyTab => .list TAB_TYPES
  | .Select => .selectable

/-- Modelled from the spec: `isMixedCase` lives in `shared/main.ts`
(not under `src/`); it reports whether the alphabet mixes upper and
lower case. -/
def strToUpper (s : String) : String := String.mk (s.toList.map Char.toUpper)

/-- Whether the hint alphabet is mixed-case. -/
def isMixedCase (s : String) : Bool := (strToLower s != s) && (strToUpper s != s)

/-- `getBadgeText`. -/
def getBadgeText (hintsState : HintsState) (now : Int) : String :=
  match hintsState with
  | .Idle _ => ""
  | .Collecting cd =>
      if now - cd.startTime > BADGE_COLLECTING_DELAY ∨ cd.refreshing = true
      then "…" else ""
  | .Hinting hd =>
      toString (hd.elementsWithHints.filter (fun element =>
        !element.hidden &&
          matchesText element.text (splitEnteredText hd.enteredText) &&
          jsStartsWith element.hint hd.enteredChars)).length

/-- `makeWorkerState`, reduced to the tracked payload: a `StateSync`
whose `clearElements` is set exactly in `Idle`. -/
def makeWorkerState (s : CtrlState) : ToWorkerMsg :=
  match s.hintsState with
  | .Hinting _ => .stateSync false
  | .Idle _ => .stateSync true
  | .Collecting _ => .stateSync false

/-- JS `Map.set` on an insertion-ordered association list: update in
place or append a new key at the end. -/
def setAssocEntry (m : List (Int × List Int)) (k : Int) (v : List Int) :
    List (Int × List Int) :=
  match m with
  | [] => [(k, v)]
  | (k', v') :: rest =>
      if k' = k then (k, v) :: rest else (k', v') :: setAssocEntry rest k v

/-- The `indexesByFrame` map built by `getTextRects` (an entry is created
for every frame seen; matching elements push their per-frame index). -/
def getTextRectsFrames (enteredChars : String)
    (allElementsWithHints : List ElementWithHint) (words : List String) :
    List (Int × List Int) :=
  allElementsWithHints.foldl (fun acc e =>
    let previous :=
      (((acc.find? (fun p => p.1 == e.frame.id)).map (fun p => p.2)).getD [])
    let updatedList :=
      if matchesText e.text words && jsStartsWith e.hint enteredChars
      then previous ++ [e.frame.index] else previous
    setAssocEntry acc e.frame.id updatedList) []

/-- `getTextRects`: one `GetTextRects` message per frame. -/
def getTextRects (enteredChars : String)
    (allElementsWithHints : List ElementWithHint) (words : List String) :
    List Effect :=
  (getTextRectsFrames enteredChars allElementsWithHints words).map
    (fun p => .toWorker (.getTextRectsMsg p.2 words) (.frame p.1))

/-- `openNewTab`: focus the matched element in its frame, then create the
tab.  The `PREFER_WINDOWS` / Chrome / Firefox dispatch is environment
plumbing; every branch opens `url` with the given foreground flag. -/
def openNewTab (url : String) (elementIndex frameId : Int)
    (foreground : Bool) : List Effect :=
  [.toWorker (.focusElement elementIndex) (.frame frameId),
   .createTab url foreground]

/-- `enterHintsMode`: broadcast the scan request, reset pending elements,
preserve highlighted items, record whether this is a refresh. -/
def enterHintsMode (s : CtrlState) (timestamp now : Int) (mode : HintsMode) :
    CtrlState × List Effect :=
  let refreshing := match s.hintsState with
    | .Idle _ => false
    | _ => true
  let newState : CtrlState :=
    { s with hintsState := .Collecting {
        mode := mode
        pendingElements := {
          pendingFrames := {
            answering := 0
            collecting := 1
            lastStartWaitTimestamp := now }
          elements := [] }
        startTime := timestamp
        refreshing := refreshing
        highlighted := s.hintsState.highlightedItems } }
  (newState,
    [.toWorker (.startFindElements (getElementTypes mode)) (.frame TOP_FRAME_ID),
     .setBadge (getBadgeText newState.hintsState now),
     .schedule BADGE_COLLECTING_DELAY])

/-- `updateWorkerStateAfterHintActivation`. -/
def updateWorkerStateAfterHintActivation (opts : Options) (s : CtrlState)
    (preventOverTyping : Bool) (now : Int) : CtrlState × List Effect :=
  if preventOverTyping then
    let s' := { s with keyboardMode := .PreventOverTyping now }
    (s', [.schedule opts.overTypingDuration, .toWorker (makeWorkerState s') .allFrames])
  else
    (s, [.toWorker (makeWorkerState s) .allFrames])

/-- `maybeStartHinting`: finalize hint assignment once the pending-frame
condition is satisfied. -/
def maybeStartHinting (opts : Options) (s : CtrlState) (now : Int) :
    CtrlState × List Effect :=
  match s.hintsState with
  | .Idle _ => (s, [])
  | .Hinting _ => (s, [])
  | .Collecting cd =>
      let pendingFrames := cd.pendingElements.pendingFrames
      let frameWaitDuration := now - pendingFrames.lastStartWaitTimestamp
      if pendingFrames.collecting > 0 ∨
          (pendingFrames.answering > 0 ∧
            frameWaitDuration < FRAME_REPORT_TIMEOUT) then
        (s, [])
      else
        let elementsWithHints : List ElementWithHint :=
          (assignHints
            (cd.pendingElements.elements.enum.map (fun p =>
              ElementWithHint.mk { p.2 with index := (p.1 : Int) } 0 ""))
            cd.mode opts.chars false).enum.map
            (fun p => { p.2 with index := (p.1 : Int) })
        let elementKeys := elementsWithHints.map elementKey
        let highlightedKeys := cd.highlighted.map (fun h => elementKey h.element)
        let alreadyHighlighted := cd.highlighted.filter
          (fun h => elementKeys.contains (elementKey h.element))
        let extraHighlighted := cd.highlighted.filter
          (fun h => !(elementKeys.contains (elementKey h.element)))
        let numElements := elementsWithHints.length
        let highlighted :=
          (extraHighlighted.enum.map (fun p =>
            ({ sinceTimestamp := p.2.sinceTimestamp
               element := { p.2.element with
                 index := ((numElements + p.1 : Nat) : Int) } } :
              HighlightedItem))) ++
          alreadyHighlighted.map (fun item =>
            ({ sinceTimestamp := item.sinceTimestamp
               element := { item.element with index := -1 } } :
              HighlightedItem))
        let elementRenders : List ElementRender :=
          (elementsWithHints.enum.map (fun p =>
            ({ hintMeasurements := p.2.hintMeasurements
               hint := p.2.hint
               highlighted := highlightedKeys.contains (elementKey p.2)
               invertedZIndex := (p.1 : Int) + 1 } : ElementRender))) ++
          extraHighlighted.map (fun item =>
            ({ hintMeasurements := item.element.hintMeasurements
               hint := item.element.hint
               highlighted := true
               invertedZIndex := 0 } : ElementRender))
        let newState : CtrlState :=
          { s with hintsState := .Hinting {
              mode := cd.mode
              startTime := cd.startTime
              enteredChars := ""
              enteredText := ""
              elementsWithHints := elementsWithHints
              highlighted := highlighted
              updateState := .WaitingForTimeout cd.startTime
              peeking := false } }
        (newState,
          [.toWorker (makeWorkerState newState) .allFrames,
           .schedule UPDATE_INTERVAL,
           .toRenderer (.render elementRenders (isMixedCase opts.chars)),
           .setBadge (getBadgeText newState.hintsState now)])

/-- `updateElements`: the periodic refresh tick while Hinting. -/
def updateElements (s : CtrlState) (now : Int) : CtrlState × List Effect :=
  match s.hintsState with
  | .Hinting hd =>
      (match hd.updateState with
       | .WaitingForResponse _ => (s, [])
       | .WaitingForTimeout lastUpdateStartTimestamp =>
          if now - lastUpdateStartTimestamp ≥ UPDATE_INTERVAL then
            if hd.elementsWithHints.all (fun element => element.hidden) then
              enterHintsMode s now now hd.mode
            else
              let s' : CtrlState :=
                { s with hintsState := .Hinting { hd with
                    updateState := .WaitingForResponse now } }
              (s', [.toWorker (makeWorkerState s') .allFrames,
                    .toWorker .updateElementsMsg (.frame TOP_FRAME_ID)])
          else (s, []))
  | _ => (s, [])

/-- `.toLowerCase().replace(/^\s+/, "").replace(/\s+$/, " ")`: lowercase,
trim leading whitespace, collapse a trailing whitespace run to one space. -/
def normalizeEnteredText (s : String) : String :=
  let lower := (strToLower s).toList
  let led := lower.dropWhile Char.isWhitespace
  let rev := led.reverse
  let ws := rev.takeWhile Char.isWhitespace
  let core := (rev.dropWhile Char.isWhitespace).reverse
  if ws.isEmpty then String.mk core else String.mk (core ++ [' '])

/-- Whether the input is an `Input` with no printable key. -/
def HintInput.isInputWithoutPrintableKey : HintInput → Bool
  | .Input keypress => keypress.printableKey.isNone
  | _ => false

/-- Whether the input is an `ActivateHint`. -/
def HintInput.isActivate : HintInput → Bool
  | .ActivateHint _ => true
  | _ => false

/-- Whether the input is a `Backspace`. -/
def HintInput.isBackspace : HintInput → Bool
  | .Backspace => true
  | _ => false

/-- Whether the input is an `Input` whose printable key is contained in
the configured hint characters (`chars.includes(printableKey)`). -/
def HintInput.printableKeyIn (chars : String) : HintInput → Bool
  | .Input keypress =>
      match keypress.printableKey with
      | some key => strIncludes chars key
      | none => false
  | _ => false

/-- Whether an update is a `Hide` record. -/
def HintUpdate.isHide : HintUpdate → Bool
  | .Hide _ _ => true
  | _ => false

/-- `handleHintMatch`: perform the mode-specific action on a matched
hint.  Returns whether the caller should continue with the shared
state/message handling, together with the new state and effects. -/
def handleHintMatch (opts : Options) (s : CtrlState)
    (matchE : ElementWithHint) (updates : List HintUpdate)
    (preventOverTyping : Bool) (alt : Bool) (timestamp now : Int) :
    Bool × CtrlState × List Effect :=
  match s.hintsState with
  | .Idle _ => (true, s, [])
  | .Collecting _ => (true, s, [])
  | .Hinting hd =>
      let mode : HintsMode :=
        if matchE.url ≠ none ∧ alt = true ∧ hd.mode ≠ .Select
        then .ForegroundTab else hd.mode
      match mode with
      | .Click =>
          (true, s,
            [.toWorker (.clickElement matchE.frame.index)
              (.frame matchE.frame.id)])
      | .ManyClick =>
          if matchE.isTextInput then
            (true, s,
              [.toWorker (.clickElement matchE.frame.index)
                (.frame matchE.frame.id)])
          else
            let (s1, updEff) :=
              updateWorkerStateAfterHintActivation opts s preventOverTyping now
            let (s2, enterEff) := enterHintsMode s1 timestamp now hd.mode
            (false, s2,
              [.toWorker (.clickElement matchE.frame.index)
                (.frame matchE.frame.id),
               .toRenderer (.updateHintsMsg
                 (updates.filter (fun u => !u.isHide)) hd.enteredText),
               .toRenderer .removeShruggie] ++
              updEff ++ enterEff ++ [.schedule MATCH_HIGHLIGHT_DURATION])
      | .ManyTab =>
          match matchE.url with
          | none => (true, s, [])
          | some url =>
              let matchedIndexes :=
                (hd.elementsWithHints.filter
                  (fun e => e.hint == matchE.hint)).map (fun e => e.index)
              let highlightedKeys :=
                hd.highlighted.map (fun h => elementKey h.element)
              let hd' := { hd with enteredChars := "", enteredText := "" }
              let s1 := { s with hintsState := .Hinting hd' }
              let tabEff :=
                openNewTab url matchE.frame.index matchE.frame.id false
              let updateList :=
                (assignHints hd'.elementsWithHints .ManyTab opts.chars
                  false).enum.map (fun p =>
                    HintUpdate.UpdateContent p.2.index (p.1 : Int) ""
                      p.2.hint
                      (matchedIndexes.contains p.2.index ||
                        highlightedKeys.contains (elementKey p.2))
                      p.2.hidden)
              let (s2, updWEff) :=
                updateWorkerStateAfterHintActivation opts s1 preventOverTyping now
              (false, s2,
                tabEff ++ [.toRenderer (.updateHintsMsg updateList "")] ++
                updWEff ++ [.setBadge (getBadgeText s2.hintsState now),
                  .schedule MATCH_HIGHLIGHT_DURATION])
      | .BackgroundTab =>
          match matchE.url with
          | none => (true, s, [])
          | some url =>
              (true, s, openNewTab url matchE.frame.index matchE.frame.id false)
      | .ForegroundTab =>
          match matchE.url with
          | none => (true, s, [])
          | some url =>
              (true, s, openNewTab url matchE.frame.index matchE.frame.id true)
      | .Select =>
          (true, s,
            [.toWorker
              (if alt then .copyElement matchE.frame.index
               else .selectElement matchE.frame.index)
              (.frame matchE.frame.id)])

/-- `handleHintInput`: the per-keystroke entry point while Hinting. -/
def handleHintInput (opts : Options) (s : CtrlState) (timestamp now : Int)
    (input : HintInput) : CtrlState × List Effect :=
  match s.hintsState with
  | .Idle _ => (s, [])
  | .Collecting _ => (s, [])
  | .Hinting hd =>
      -- Ignore unknown/non-text keys.
      if input.isInputWithoutPrintableKey then (s, [])
      else
        let isHintKey : Bool :=
          input.printableKeyIn opts.chars ||
            (input.isBackspace && (hd.enteredChars != ""))
        -- Disallow filtering by text after having started entering hint chars.
        if !isHintKey && !input.isActivate && (hd.enteredChars != "") then
          (s, [])
        else
          let updated :=
            updateChars (if isHintKey then hd.enteredChars else hd.enteredText)
              input
          let enteredChars := if isHintKey then updated else hd.enteredChars
          let enteredText :=
            if isHintKey then hd.enteredText else normalizeEnteredText updated
          let r := updateHints {
            mode := hd.mode
            enteredChars := enteredChars
            enteredText := enteredText
            elementsWithHints := hd.elementsWithHints
            highlighted := hd.highlighted
            chars := opts.chars
            autoActivate := opts.autoActivate
            matchHighlighted := input.isActivate
            updateMeasurements := false }
          -- Disallow matching hints (by text) by backspacing away chars.
          let matchAndPrevent : Option ElementWithHint × Bool :=
            if input.isBackspace then (none, false)
            else match r.matched with
              | none => (none, false)
              | some m => (some m.1, m.2)
          let matchE := matchAndPrevent.1
          let preventOverTyping := matchAndPrevent.2
          -- If pressing a hint char that is currently unused, ignore it.
          if (enteredChars != "") && r.updates.all (fun u => u.hiddenFlag) then
            (s, [])
          else
            let highlighted : List HighlightedItem :=
              match matchE with
              | some m =>
                  (r.allElementsWithHints.filter
                    (fun e => e.hint == m.hint)).map
                    (fun e => { sinceTimestamp := now, element := e })
              | none => []
            let hd' := { hd with
              enteredChars := enteredChars
              enteredText := enteredText
              elementsWithHints := r.allElementsWithHints
              highlighted := hd.highlighted ++ highlighted }
            let s1 := { s with hintsState := .Hinting hd' }
            let textRectsEff :=
              getTextRects enteredChars r.allElementsWithHints r.words
            let alt : Bool :=
              (match input with
               | .Input keypress =>
                   if opts.mac then keypress.ctrl else keypress.alt
               | _ => false) ||
              (match input with
               | .ActivateHint altFlag => altFlag
               | _ => false)
            match matchE with
            | none =>
                (s1, textRectsEff ++
                  [.toRenderer (.updateHintsMsg r.updates enteredText),
                   .setBadge (getBadgeText s1.hintsState now)])
            | some m =>
                let handled :=
                  handleHintMatch opts s1 m r.updates preventOverTyping alt
                    timestamp now
                if handled.1 then
                  let s3 := { handled.2.1 with
                    hintsState := .Idle hd'.highlighted }
                  let afterWorker :=
                    updateWorkerStateAfterHintActivation opts s3
                      preventOverTyping now
                  (afterWorker.1, textRectsEff ++ handled.2.2 ++
                    [.toRenderer (.updateHintsMsg r.updates enteredText),
                     .schedule MATCH_HIGHLIGHT_DURATION] ++ afterWorker.2 ++
                    [.setBadge (getBadgeText afterWorker.1.hintsState now)])
                else
                  (handled.2.1, textRectsEff ++ handled.2.2)

/-! ## Claims about the state machine (C1, C3, C7, C9) -/

/-- C1: from a Collecting state, `maybeStartHinting` finalizes hint
assignment (the state transitions to Hinting) exactly when the pending
frames' collecting count is zero and (the answering count is zero or the
elapsed wait since `lastStartWaitTimestamp` is at least
`FRAME_REPORT_TIMEOUT`); otherwise the state is left unchanged and no
effect is emitted. -/
theorem maybeStartHinting_spec (opts : Options) (s : CtrlState) (now : Int)
    (cd : CollectingData) (hs : s.hintsState = .Collecting cd) :
    (((maybeStartHinting opts s now).1.hintsState.isHinting = true) ↔
      (cd.pendingElements.pendingFrames.collecting = 0 ∧
        (cd.pendingElements.pendingFrames.answering = 0 ∨
          now - cd.pendingElements.pendingFrames.lastStartWaitTimestamp ≥
            FRAME_REPORT_TIMEOUT))) ∧
    (¬ (cd.pendingElements.pendingFrames.collecting = 0 ∧
        (cd.pendingElements.pendingFrames.answering = 0 ∨
          now - cd.pendingElements.pendingFrames.lastStartWaitTimestamp ≥
            FRAME_REPORT_TIMEOUT)) →
      maybeStartHinting opts s now = (s, [])) := by
  rcases s with ⟨hsState, km⟩
  have hs' : hsState = .Collecting cd := hs
  subst hs'
  have hbridge : ¬ (cd.pendingElements.pendingFrames.collecting > 0 ∨
      (cd.pendingElements.pendingFrames.answering > 0 ∧
        now - cd.pendingElements.pendingFrames.lastStartWaitTimestamp <
          FRAME_REPORT_TIMEOUT)) ↔
      (cd.pendingElements.pendingFrames.collecting = 0 ∧
        (cd.pendingElements.pendingFrames.answering = 0 ∨
          now - cd.pendingElements.pendingFrames.lastStartWaitTimestamp ≥
            FRAME_REPORT_TIMEOUT)) := by
    omega
  by_cases hcond : (cd.pendingElements.pendingFrames.collecting > 0 ∨
      (cd.pendingElements.pendingFrames.answering > 0 ∧
        now - cd.pendingElements.pendingFrames.lastStartWaitTimestamp <
          FRAME_REPORT_TIMEOUT))
  · have heq : maybeStartHinting opts ⟨HintsState.Collecting cd, km⟩ now =
        (⟨HintsState.Collecting cd, km⟩, []) := by
      simp only [maybeStartHinting]
      rw [if_pos hcond]
    refine ⟨?_, fun _ => heq⟩
    rw [heq]
    simp only [HintsState.isHinting]
    constructor
    · intro h
      cases h
    · intro h2
      exact absurd hcond (hbridge.mpr h2)
  · have hc2 := hbridge.mp hcond
    have heq : (maybeStartHinting opts
        ⟨HintsState.Collecting cd, km⟩ now).1.hintsState.isHinting = true := by
      simp only [maybeStartHinting]
      rw [if_neg hcond]
      rfl
    exact ⟨⟨fun _ => hc2, fun _ => heq⟩, fun h2 => absurd hc2 h2⟩

/-- A Collecting state whose only pending frame is still unanswered. -/
def c1Collecting : CollectingData :=
  { mode := .Click
    pendingElements := {
      pendingFrames := {
        answering := 1
        collecting := 0
        lastStartWaitTimestamp := 0 }
      elements := [] }
    startTime := 0
    refreshing := false
    highlighted := [] }

/-- Options used by the state-machine witnesses. -/
def sampleOpts : Options :=
  { chars := "ab", autoActivate := false, overTypingDuration := 200, mac := false }

/-- C1 witness: with collecting = 0, answering = 1 and 150 ms elapsed
(≥ `FRAME_REPORT_TIMEOUT`), hinting proceeds. -/
theorem maybeStartHinting_spec_witness :
    (maybeStartHinting sampleOpts
      ⟨HintsState.Collecting c1Collecting, .FromHintsState⟩
      150).1.hintsState.isHinting = true :=
  (maybeStartHinting_spec sampleOpts
    ⟨HintsState.Collecting c1Collecting, .FromHintsState⟩ 150 c1Collecting
    rfl).1.mpr (by decide)

/-- C7: while Hinting with `WaitingForTimeout` and the interval elapsed,
the periodic tick re-enters Collecting for the same mode (refreshing)
when every element is hidden, and otherwise switches to
`WaitingForResponse` and requests fresh measurements; in every other
situation it changes nothing. -/
theorem updateElements_spec (s : CtrlState) (now : Int) :
    (∀ hd ts, s.hintsState = .Hinting hd →
      hd.updateState = .WaitingForTimeout ts →
      now - ts ≥ UPDATE_INTERVAL →
      ((hd.elementsWithHints.all (fun e => e.hidden) = true →
        ∃ cd : CollectingData,
          (updateElements s now).1.hintsState = .Collecting cd ∧
          cd.mode = hd.mode ∧ cd.refreshing = true) ∧
       (hd.elementsWithHints.all (fun e => e.hidden) = false →
        (updateElements s now).1.hintsState =
          .Hinting { hd with updateState := .WaitingForResponse now } ∧
        Effect.toWorker .updateElementsMsg (.frame TOP_FRAME_ID) ∈
          (updateElements s now).2))) ∧
    (∀ hd ts, s.hintsState = .Hinting hd →
      hd.updateState = .WaitingForTimeout ts →
      now - ts < UPDATE_INTERVAL → updateElements s now = (s, [])) ∧
    (∀ hd ts, s.hintsState = .Hinting hd →
      hd.updateState = .WaitingForResponse ts →
      updateElements s now = (s, [])) ∧
    (s.hintsState.isHinting = false → updateElements s now = (s, [])) := by
  rcases s with ⟨hsState, km⟩
  refine ⟨?_, ?_, ?_, ?_⟩
  · intro hd ts hsh hups htime
    have hsh' : hsState = .Hinting hd := hsh
    subst hsh'
    constructor
    · intro hall
      have hred : (updateElements ⟨HintsState.Hinting hd, km⟩ now).1.hintsState =
          .Collecting {
            mode := hd.mode
            pendingElements := {
              pendingFrames := {
                answering := 0
                collecting := 1
                lastStartWaitTimestamp := now }
              elements := [] }
            startTime := now
            refreshing := true
            highlighted := hd.highlighted } := by
        simp only [updateElements, hups]
        rw [if_pos htime, if_pos hall]
        rfl
      exact ⟨_, hred, rfl, rfl⟩
    · intro hnall
      have hred : updateElements ⟨HintsState.Hinting hd, km⟩ now =
          ((⟨HintsState.Hinting { hd with
              updateState := .WaitingForResponse now }, km⟩ : CtrlState),
            [.toWorker (makeWorkerState ⟨HintsState.Hinting { hd with
                updateState := .WaitingForResponse now }, km⟩) .allFrames,
             .toWorker .updateElementsMsg (.frame TOP_FRAME_ID)]) := by
        simp only [updateElements, hups]
        rw [if_pos htime]
        rw [show (hd.elementsWithHints.all fun e => e.hidden) = false from hnall]
        simp
      rw [hred]
      exact ⟨rfl, by simp⟩
  · intro hd ts hsh hups htime
    have hsh' : hsState = .Hinting hd := hsh
    subst hsh'
    simp only [updateElements, hups]
    rw [if_neg (by omega : ¬ now - ts ≥ UPDATE_INTERVAL)]
  · intro hd ts hsh hups
    have hsh' : hsState = .Hinting hd := hsh
    subst hsh'
    simp only [updateElements, hups]
  · intro hnot
    cases hsState with
    | Hinting hd => cases hnot
    | Collecting cd => rfl
    | Idle h => rfl

/-- A Hinting state whose single element has become hidden. -/
def c7Hinting : HintingData :=
  { mode := .Click
    startTime := 0
    enteredChars := ""
    enteredText := ""
    elementsWithHints := [{ c2ElementA with hidden := true }]
    highlighted := []
    updateState := .WaitingForTimeout 0
    peeking := false }

/-- C7 witness: at 500 ms with every element hidden, the tick re-enters
Collecting with the same mode and `refreshing = true`. -/
theorem updateElements_spec_witness :
    ∃ cd : CollectingData,
      (updateElements ⟨HintsState.Hinting c7Hinting, .FromHintsState⟩
        500).1.hintsState = .Collecting cd ∧
      cd.mode = c7Hinting.mode ∧ cd.refreshing = true :=
  ((updateElements_spec ⟨HintsState.Hinting c7Hinting, .FromHintsState⟩
    500).1 c7Hinting 0 rfl rfl (by decide)).1 (by decide)

/-- Effects that actuate a hint: clicking/selecting/copying/focusing an
element or opening a tab. -/
def isActivationEffect : Effect → Bool
  | .toWorker (.clickElement _) _ => true
  | .toWorker (.selectElement _) _ => true
  | .toWorker (.copyElement _) _ => true
  | .toWorker (.focusElement _) _ => true
  | .createTab _ _ => true
  | _ => false

theorem getTextRects_no_activation (enteredChars : String)
    (all : List ElementWithHint) (words : List String) :
    ∀ eff ∈ getTextRects enteredChars all words,
      isActivationEffect eff = false := by
  intro eff heff
  rcases List.mem_map.mp heff with ⟨p, _, rfl⟩
  rfl

/-- C9: once hint characters have been entered, text filtering is locked
out: an `Input` keypress whose printable key is defined but not among the
configured hint characters leaves the state unchanged and emits nothing. -/
theorem handleHintInput_text_lockout (opts : Options) (s : CtrlState)
    (timestamp now : Int) (hd : HintingData) (kp : NormalizedKeypress)
    (key : String) (hs : s.hintsState = .Hinting hd)
    (hne : hd.enteredChars ≠ "") (hkey : kp.printableKey = some key)
    (hnotin : strIncludes opts.chars key = false) :
    handleHintInput opts s timestamp now (.Input kp) = (s, []) := by
  rcases s with ⟨hsState, km⟩
  have hs' : hsState = .Hinting hd := hs
  subst hs'
  have h1 : (HintInput.Input kp).isInputWithoutPrintableKey = false := by
    simp [HintInput.isInputWithoutPrintableKey, hkey]
  have h2 : (HintInput.Input kp).printableKeyIn opts.chars = false := by
    simp [HintInput.printableKeyIn, hkey, hnotin]
  have h3 : (HintInput.Input kp).isBackspace = false := rfl
  have h4 : (HintInput.Input kp).isActivate = false := rfl
  have hne' : (hd.enteredChars != "") = true := by
    simp [bne_iff_ne, hne]
  simp only [handleHintInput, h1, h2, h3, h4, hne', Bool.false_and,
    Bool.or_false, Bool.not_false, Bool.and_true, Bool.true_and,
    Bool.false_eq_true, if_false, if_true]

/-- C3: with the last input a Backspace, `handleHintInput` never
activates a hint: the state stays in the Hinting variant, at most one
previously typed hint character is removed, and no activation effect
(click/select/copy/focus/open-tab) is emitted. -/
theorem handleHintInput_backspace_no_activation (opts : Options)
    (s : CtrlState) (timestamp now : Int) (hd : HintingData)
    (hs : s.hintsState = .Hinting hd) :
    (∃ hd' : HintingData,
      (handleHintInput opts s timestamp now .Backspace).1.hintsState =
        .Hinting hd' ∧
      (hd'.enteredChars = hd.enteredChars ∨
        hd'.enteredChars = strDropLast hd.enteredChars)) ∧
    (∀ eff ∈ (handleHintInput opts s timestamp now .Backspace).2,
      isActivationEffect eff = false) := by
  rcases s with ⟨hsState, km⟩
  have hs' : hsState = .Hinting hd := hs
  subst hs'
  have h1 : (HintInput.Backspace).isInputWithoutPrintableKey = false := rfl
  have h2 : (HintInput.Backspace).printableKeyIn opts.chars = false := rfl
  have h3 : (HintInput.Backspace).isBackspace = true := rfl
  have h4 : (HintInput.Backspace).isActivate = false := rfl
  by_cases hc : hd.enteredChars = ""
  · -- no hint chars typed: the backspace edits the entered text only
    have hbe : (hd.enteredChars != "") = false := by simp [hc]
    simp only [handleHintInput, h1, h2, h3, h4, hbe, Bool.false_or,
      Bool.and_false, Bool.not_false, Bool.false_eq_true, if_false,
      Bool.true_and, Bool.and_true, Bool.false_and, if_true, Bool.not_true]
    refine ⟨⟨_, rfl, .inl rfl⟩, ?_⟩
    intro eff heff
    rcases List.mem_append.mp heff with heff | heff
    · exact getTextRects_no_activation _ _ _ eff heff
    · rcases List.mem_cons.mp heff with rfl | heff
      · rfl
      · rcases List.mem_cons.mp heff with rfl | heff
        · rfl
        · cases heff
  · have hbe : (hd.enteredChars != "") = true := by simp [bne_iff_ne, hc]
    simp only [handleHintInput, h1, h2, h3, h4, hbe, Bool.false_or,
      Bool.and_true, Bool.not_true, Bool.false_and, Bool.false_eq_true,
      if_false, if_true, Bool.true_and]
    split
    · exact ⟨⟨hd, rfl, .inl rfl⟩, fun eff heff => by cases heff⟩
    · refine ⟨⟨_, rfl, .inr rfl⟩, ?_⟩
      intro eff heff
      rcases List.mem_append.mp heff with heff | heff
      · exact getTextRects_no_activation _ _ _ eff heff
      · rcases List.mem_cons.mp heff with rfl | heff
        · rfl
        · rcases List.mem_cons.mp heff with rfl | heff
          · rfl
          · cases heff

/-- A Hinting state used by the C3/C9 witnesses: hint "a" entered with
two URL-less elements on screen. -/
def sampleHinting : HintingData :=
  { mode := .Click
    startTime := 0
    enteredChars := "a"
    enteredText := ""
    elementsWithHints := [c2ElementA, c2ElementB]
    highlighted := []
    updateState := .WaitingForTimeout 0
    peeking := false }

/-- C3 witness: a Backspace in `sampleHinting` keeps the Hinting state
and emits no activation effect. -/
theorem handleHintInput_backspace_witness :
    (∃ hd' : HintingData,
      (handleHintInput sampleOpts ⟨HintsState.Hinting sampleHinting,
          .FromHintsState⟩ 0 0 .Backspace).1.hintsState = .Hinting hd' ∧
      (hd'.enteredChars = sampleHinting.enteredChars ∨
        hd'.enteredChars = strDropLast sampleHinting.enteredChars)) ∧
    (∀ eff ∈ (handleHintInput sampleOpts ⟨HintsState.Hinting sampleHinting,
        .FromHintsState⟩ 0 0 .Backspace).2,
      isActivationEffect eff = false) :=
  handleHintInput_backspace_no_activation sampleOpts
    ⟨HintsState.Hinting sampleHinting, .FromHintsState⟩ 0 0 sampleHinting rfl

/-- C9 witness: with hint characters entered, a printable key outside the
alphabet is ignored entirely. -/
theorem handleHintInput_text_lockout_witness :
    handleHintInput sampleOpts
      ⟨HintsState.Hinting sampleHinting, .FromHintsState⟩ 0 0
      (.Input { printableKey := some "z", alt := false, cmd := false,
                ctrl := false, shift := false }) =
      (⟨HintsState.Hinting sampleHinting, .FromHintsState⟩, []) :=
  handleHintInput_text_lockout sampleOpts
    ⟨HintsState.Hinting sampleHinting, .FromHintsState⟩ 0 0 sampleHinting
    { printableKey := some "z", alt := false, cmd := false, ctrl := false,
      shift := false } "z" rfl (by decide) rfl (by decide)
